import Mathlib

/-!
Verification of the `builder` package of `raywall/go-libs-config`.

The Go code assembles a flat list of slash-keyed parameters (fetched from a
parameter store) into a nested configuration document, merges documents from
several prefixes, and optionally reorders a `types` sequence of typed schema
entries topologically by their `ofType` dependencies.

We embed the configuration trees (`map[string]interface{}` / `[]interface{}` /
scalars) as the sum type `Value`, with Go maps rendered as association lists
whose entry order is an artifact of the embedding (Go map iteration order is
unspecified; we use first-insertion order).  All statements about mappings are
made through `mapGet`, never through entry order, except where a claim itself
fixes the exact shape.
-/

set_option autoImplicit false

namespace GoConfig

/-- A dynamic JSON/YAML-like value: the embedding of Go's `interface{}`
configuration trees (`nil`, `bool`, numbers, `string`, `[]interface{}`,
`map[string]interface{}`).  Numbers are restricted to integers: no claim in
this development depends on non-integral numerics. -/
inductive Value where
  | null : Value
  | bool : Bool → Value
  | num : Int → Value
  | str : String → Value
  | arr : List Value → Value
  | obj : List (String × Value) → Value

/-- Reading a Go map: the value stored at `key`, if any.  An association list
with unique keys models `map[string]T`; `mapGet` is the read `m[key]`. -/
def mapGet {α : Type} : List (String × α) → String → Option α
  | [], _ => none
  | (k, v) :: rest, key => if k = key then some v else mapGet rest key

/-- Writing a Go map: `m[key] = val` (replaces the binding if the key is
present, otherwise adds it). -/
def mapSet {α : Type} : List (String × α) → String → α → List (String × α)
  | [], key, val => [(key, val)]
  | (k, v) :: rest, key, val =>
      if k = key then (k, val) :: rest else (k, v) :: mapSet rest key val

/-- One parameter fetched from the store: `(Name, Value)` strings
(`ssm/types.Parameter` restricted to the two fields the builder reads). -/
structure Param where
  name : String
  value : String
deriving DecidableEq

/-- `builder.BuildOptions`. -/
structure BuildOptions where
  prefixes : List String
  stripPrefix : Bool
  jsonOutput : Bool
  yamlRules : Bool
  sortByDependencies : Bool

/-! ### Go `strings` helpers, modelled on `List Char` -/

/-- `strings.Split(s, "/")` (the separator used throughout the builder). -/
def splitSlash (s : String) : List String :=
  (s.toList.splitOn '/').map (fun cs => String.mk cs)

/-- `strings.Join(parts, "/")`. -/
def joinSlash (parts : List String) : String :=
  String.mk (List.intercalate ['/'] (parts.map String.toList))

/-- `strings.Trim(s, "/")`: removes all leading and trailing `'/'`. -/
def trimSlashes (s : String) : String :=
  String.mk (((s.toList.dropWhile (fun c => c = '/')).reverse.dropWhile
    (fun c => c = '/')).reverse)

/-- `strings.TrimPrefix(s, pre)`: removes `pre` once if `s` starts with it. -/
def trimPre (s pre : String) : String :=
  if pre.toList.isPrefixOf s.toList then String.mk (s.toList.drop pre.toList.length)
  else s

/-- `strings.TrimSuffix(s, suf)`: removes `suf` once if `s` ends with it. -/
def trimSuf (s suf : String) : String :=
  if suf.toList.isSuffixOf s.toList then
    String.mk (s.toList.take (s.toList.length - suf.toList.length))
  else s

/-- `strings.Count(s, "/")` for the one-character separator: the number of
occurrences of `'/'`. -/
def slashCount (s : String) : Nat :=
  s.toList.count '/'

/-- `strings.Contains(s, "/")` for the one-character needle. -/
def containsSlash (s : String) : Bool :=
  s.toList.contains '/'

/-! ### Value parsing (the `encoding/json` collaborator)

`parseParameterValue` calls `json.Unmarshal` and keeps the raw string when the
value is not valid JSON.  We model the external `encoding/json` collaborator on
its scalar fragment: `null`, booleans, decimal integers and escape-free quoted
strings parse; everything else (including numbers with fraction/exponent parts
and composite values) is rejected, which sends `parseParameterValue` to its
opaque-string fallback exactly as a JSON parse error does in Go. -/

def isWsChar (c : Char) : Bool :=
  c = ' ' || c = '\n' || c = '\t' || c = '\r'

def digitsToNat (cs : List Char) : Nat :=
  cs.foldl (fun acc c => acc * 10 + (c.toNat - 48)) 0

/-- Modelled external collaborator `json.Unmarshal` (see the section comment):
`some v` when the string is a JSON scalar of the fragment, `none` otherwise. -/
def jsonUnmarshal (s : String) : Option Value :=
  let cs := ((s.toList.dropWhile isWsChar).reverse.dropWhile isWsChar).reverse
  if cs = "null".toList then some .null
  else if cs = "true".toList then some (.bool true)
  else if cs = "false".toList then some (.bool false)
  else
    match cs with
    | '"' :: rest =>
        match rest.getLast? with
        | some '"' =>
            let body := rest.dropLast
            if body.all (fun c => c ≠ '"' && c ≠ '\\') then
              some (.str (String.mk body))
            else none
        | _ => none
    | '-' :: ds =>
        if ds ≠ [] && ds.all (fun c => c.isDigit) then
          some (.num (-(Int.ofNat (digitsToNat ds))))
        else none
    | ds =>
        if ds ≠ [] && ds.all (fun c => c.isDigit) then
          some (.num (Int.ofNat (digitsToNat ds)))
        else none

/-- `(*ConfigBuilder).parseParameterValue`: parse the value as JSON, fall back
to the opaque string on a parse error. -/
def parseParameterValue (value : String) : Value :=
  match jsonUnmarshal value with
  | some result => result
  | none => .str value

/-! ### Path classification (`internal.go`) -/

/-- `(*ConfigBuilder).extractRelativePath`. -/
def extractRelativePath (fullPath basePath : String) (stripPfx : Bool) : String :=
  if stripPfx then trimSlashes (trimPre fullPath (trimSuf basePath "/"))
  else fullPath

/-- `(*ConfigBuilder).getLastPathSegment`. -/
def getLastPathSegment (path : String) : String :=
  (splitSlash path).getLastD ""

/-! ### Tree assembly (`internal.go`)

A `Level` is the Go `map[string]map[string]types.Parameter`: level key (or the
root sentinel `"."`) to child key (or `"."`) to parameter. -/

/-- The shared insertion step of `organizeParametersByLevel`: ensure the inner
map for `levelKey` exists and bind `childKey` in it. -/
def levelsInsert (levels : List (String × List (String × Param)))
    (levelKey childKey : String) (p : Param) : List (String × List (String × Param)) :=
  match mapGet levels levelKey with
  | some lv => mapSet levels levelKey (mapSet lv childKey p)
  | none => mapSet levels levelKey [(childKey, p)]

/-- The loop body of `organizeParametersByLevel`, for one parameter: group it
by its first relative path segment; the sentinel level `"."` holds parameters
whose relative path is empty, keyed by their last full-path segment; the
sentinel child `"."` marks a value sitting exactly at its level. -/
def orgStep (basePath : String) (stripPfx : Bool)
    (levels : List (String × List (String × Param))) (param : Param) :
    List (String × List (String × Param)) :=
  let relativePath := extractRelativePath param.name basePath stripPfx
  if relativePath = "" then
    levelsInsert levels "." (getLastPathSegment param.name) param
  else
    match splitSlash relativePath with
    | [] => levels
    | [levelKey] => levelsInsert levels levelKey "." param
    | parentLevel :: restParts =>
        levelsInsert levels parentLevel (joinSlash restParts) param

/-- `(*ConfigBuilder).organizeParametersByLevel`. -/
def organizeParametersByLevel (params : List Param) (basePath : String)
    (stripPfx : Bool) : List (String × List (String × Param)) :=
  params.foldl (orgStep basePath stripPfx) []

/-- `(*ConfigBuilder).shouldBeArray`: more than one child, all child keys at
the same slash depth, and that depth is zero. -/
def shouldBeArray (levelParams : List (String × Param)) : Bool :=
  if levelParams.length ≤ 1 then false
  else
    match levelParams with
    | [] => false
    | (childPath, _) :: rest =>
        let firstDepth := slashCount childPath
        (rest.all fun c => slashCount c.1 == firstDepth) && (firstDepth == 0)

/-- `(*ConfigBuilder).buildArrayFromMap`: the parsed values of the level, in
iteration order (Go map order is unspecified; we keep insertion order). -/
def buildArrayFromMap (params : List (String × Param)) : List Value :=
  params.map (fun p => parseParameterValue p.2.value)

/-- The nested-map spine of `buildNestedObject`: one `Mapping` layer per
intermediate segment, the parsed value at the last one. -/
def nestPath : List String → Value → List (String × Value)
  | [], _ => []
  | [part], v => [(part, v)]
  | part :: restParts, v => [(part, .obj (nestPath restParts v))]

/-- `(*ConfigBuilder).buildNestedObject`. -/
def buildNestedObject (childPath : String) (p : Param) : List (String × Value) :=
  nestPath (splitSlash childPath) (parseParameterValue p.value)

/-- The per-parameter insertion of `buildNestedStructure`: walk the path
segments, navigating into an existing `Mapping`, and replacing a non-`Mapping`
(or missing) intermediate node by a fresh `Mapping`. -/
def insertPath (m : List (String × Value)) : List String → Value → List (String × Value)
  | [], _ => m
  | [part], v => mapSet m part v
  | part :: restParts, v =>
      match mapGet m part with
      | some (.obj child) => mapSet m part (.obj (insertPath child restParts v))
      | _ => mapSet m part (.obj (insertPath [] restParts v))

/-- `(*ConfigBuilder).buildNestedStructure`. -/
def buildNestedStructure (levelParams : List (String × Param)) : List (String × Value) :=
  levelParams.foldl
    (fun result p => insertPath result (splitSlash p.1) (parseParameterValue p.2.value)) []

/-- `(*ConfigBuilder).processRootLevel`: several root entries become the
`items` array, a single one is bound directly under its own key. -/
def processRootLevel (result : List (String × Value))
    (levelParams : List (String × Param)) : List (String × Value) :=
  if levelParams.length > 1 then
    mapSet result "items" (.arr (buildArrayFromMap levelParams))
  else
    levelParams.foldl (fun r p => mapSet r p.1 (parseParameterValue p.2.value)) result

/-- `(*ConfigBuilder).processNestedLevel`. -/
def processNestedLevel (result : List (String × Value)) (levelKey : String)
    (levelParams : List (String × Param)) : List (String × Value) :=
  if levelParams.length = 1 then
    levelParams.foldl (fun r p =>
      if p.1 = "." then mapSet r levelKey (parseParameterValue p.2.value)
      else mapSet r levelKey (.obj (buildNestedObject p.1 p.2))) result
  else
    if shouldBeArray levelParams then
      mapSet result levelKey (.arr (buildArrayFromMap levelParams))
    else
      mapSet result levelKey (.obj (buildNestedStructure levelParams))

/-- The loop body of `buildGenericStructure`: the root sentinel level goes
through `processRootLevel`, every other level through `processNestedLevel`. -/
def genStep (result : List (String × Value)) (lv : String × List (String × Param)) :
    List (String × Value) :=
  if lv.1 = "." then processRootLevel result lv.2
  else processNestedLevel result lv.1 lv.2

/-- `(*ConfigBuilder).buildGenericStructure`. -/
def buildGenericStructure (levels : List (String × List (String × Param))) :
    List (String × Value) :=
  levels.foldl genStep []

/-- `(*ConfigBuilder).buildStructure`. -/
def buildStructure (params : List Param) (basePath : String)
    (stripPfx _sortByDependencies : Bool) : List (String × Value) :=
  if params.length = 0 then []
  else buildGenericStructure (organizeParametersByLevel params basePath stripPfx)

/-! ### Deep merge (`internal.go`) -/

mutual

/-- `(*ConfigBuilder).mergeMaps`: key-wise merge of `src` into `dest`, one
`src` entry at a time (`mergeOne` is the loop body). -/
def mergeMaps (dest : List (String × Value)) : List (String × Value) → List (String × Value)
  | [] => dest
  | (key, srcValue) :: rest => mergeMaps (mergeOne dest key srcValue) rest
termination_by src => sizeOf src

/-- The body of the `mergeMaps` loop for one `src` entry: recursive merge on
two `Mapping`s, concatenation on two `Sequence`s, otherwise the `src` value
overwrites. -/
def mergeOne (dest : List (String × Value)) (key : String) (srcValue : Value) :
    List (String × Value) :=
  match mapGet dest key, srcValue with
  | some (.obj destMap), .obj srcMap => mapSet dest key (.obj (mergeMaps destMap srcMap))
  | some (.arr destArray), .arr srcArray => mapSet dest key (.arr (destArray ++ srcArray))
  | _, _ => mapSet dest key srcValue
termination_by sizeOf srcValue

end

/-! ### YAML-rules document (`buildYAMLStructure`)

The `gopkg.in/yaml.v3` unmarshaller is an external collaborator; the builder
only asks it two questions — "is this value a mapping?" and "is this value a
sequence?" — so we abstract it as the two parser parameters `tryMap` and
`tryList` and prove the claims for every parser pair. -/

/-- The top-level rule key a parameter binds in YAML-rules mode: its relative
path, or its last full-path segment when the relative path is empty. -/
def ruleKey (p : Param) (basePath : String) (stripPfx : Bool) : String :=
  let relative := extractRelativePath p.name basePath stripPfx
  if relative = "" then getLastPathSegment p.name else relative

/-- The loop body of `buildYAMLStructure`, for one parameter: flat rule keys
only; a value parsed as a mapping is deep-merged; a value parsed as a sequence
is bound under the parameter's rule key, rejecting a duplicate key; anything
else is a parse error. -/
def yamlStep (tryMap : String → Option (List (String × Value)))
    (tryList : String → Option (List Value)) (basePath : String) (stripPfx : Bool)
    (result : List (String × Value)) (param : Param) :
    Except String (List (String × Value)) :=
  let value := param.value
  let relative := extractRelativePath param.name basePath stripPfx
  if containsSlash relative then
    .error ("parametros aninhados nao sao suportados para regras YAML: " ++ param.name)
  else
    let relative := if relative = "" then getLastPathSegment param.name else relative
    match tryMap value with
    | some m => .ok (mergeMaps result m)
    | none =>
        match tryList value with
        | none => .error ("falha ao parsear YAML como map ou lista em " ++ param.name)
        | some l =>
            match mapGet result relative with
            | some _ => .error ("chave de regra duplicada: " ++ relative)
            | none => .ok (mapSet result relative (.arr l))

/-- `(*ConfigBuilder).buildYAMLStructure`. -/
def buildYAMLStructure (tryMap : String → Option (List (String × Value)))
    (tryList : String → Option (List Value)) (params : List Param)
    (basePath : String) (stripPfx : Bool) : Except String (List (String × Value)) :=
  params.foldlM (yamlStep tryMap tryList basePath stripPfx) []

/-! ### Dependency sorter (`types.go`, `sortTypesByDependency`)

Kahn's algorithm over the declared type names.  Go iterates its maps in an
unspecified order; the embedding fixes first-appearance order (of the `types`
sequence for the name set, insertion order for adjacency lists and the queue),
one of the orders Go can realize. -/

/-- The name of a typed entry: the `name` key of a mapping entry, when it is a
string (`t.(map[string]interface{})` and `typeMap["name"].(string)`). -/
def typeName (t : Value) : Option String :=
  match t with
  | .obj fields =>
      match mapGet fields "name" with
      | some (.str n) => some n
      | _ => none
  | _ => none

/-- The first collection loop of `sortTypesByDependency`: build
`typeDefinitions` (name to entry, later entries overwriting) and `typeNames`
(the declared-name set, kept in first-appearance order), skipping entries that
are not mappings or lack a string `name`. -/
def collectTypesAux : List Value → List (String × Value) → List String →
    List (String × Value) × List String
  | [], defs, names => (defs, names)
  | t :: rest, defs, names =>
      match typeName t with
      | some name =>
          collectTypesAux rest (mapSet defs name t)
            (if names.contains name then names else names ++ [name])
      | none => collectTypesAux rest defs names

def collectTypes (rawTypes : List Value) : List (String × Value) × List String :=
  collectTypesAux rawTypes [] []

/-- The `ofType` dependencies contributed by one field: the field's own
`ofType` followed by the `ofType` of each of its `args`, each kept only when it
names a declared type (`typeNames[dependencyName]`). -/
def fieldEdgeDeps (names : List String) (f : Value) : List String :=
  match f with
  | .obj field =>
      (match mapGet field "ofType" with
       | some (.str dependencyName) =>
           if names.contains dependencyName then [dependencyName] else []
       | _ => []) ++
      (match mapGet field "args" with
       | some (.arr args) =>
           (args.map (fun a =>
             match a with
             | .obj arg =>
                 match mapGet arg "ofType" with
                 | some (.str dependencyName) =>
                     if names.contains dependencyName then [dependencyName] else []
                 | _ => []
             | _ => [])).flatten
       | _ => [])
  | _ => []

/-- The dependencies of the declared type `name`: its definition's `fields`
sequence, folded through `fieldEdgeDeps` (a definition without a `fields`
sequence contributes nothing). -/
def typeEdgeDeps (names : List String) (defs : List (String × Value))
    (name : String) : List String :=
  match mapGet defs name with
  | some (.obj typeDef) =>
      match mapGet typeDef "fields" with
      | some (.arr fields) => (fields.map (fieldEdgeDeps names)).flatten
      | _ => []
  | _ => []

/-- The edge list of the dependency graph, in construction order: `(dep, name)`
for every declared `name` whose definition references the declared `dep`
(`adjacencia[dep] = append(adjacencia[dep], name)` adds exactly these). -/
def kahnEdges (names : List String) (defs : List (String × Value)) :
    List (String × String) :=
  (names.map (fun name => (typeEdgeDeps names defs name).map (fun dep => (dep, name)))).flatten

/-- The adjacency list `adjacencia[d]`: the dependents of `d`, in the order
their edges were appended. -/
def adjacencia (edges : List (String × String)) (d : String) : List String :=
  (edges.filter (fun e => e.1 = d)).map (fun e => e.2)

/-- The initial in-degree `grauEntrada[n]`: the number of edges into `n`.
Kept as `Int` because the Go map holds `int` values that are decremented. -/
def grau0 (edges : List (String × String)) (n : String) : Int :=
  Int.ofNat ((edges.map (fun e => e.2)).count n)

/-- The inner loop body of Kahn's algorithm: decrement the in-degree of each
neighbour in turn, collecting (in order) those that reach exactly zero —
the ones Go appends to the queue. -/
def processNeighbors (grau : String → Int) : List String → (String → Int) × List String
  | [] => (grau, [])
  | n :: rest =>
      let g2 : String → Int := fun m => if m = n then grau n - 1 else grau m
      let pr := processNeighbors g2 rest
      if grau n - 1 = 0 then (pr.1, n :: pr.2) else (pr.1, pr.2)

/-- The `for len(fila) > 0` loop of Kahn's algorithm.  The loop always
terminates; `fuel` only bounds the recursion, and `kahnNames` supplies enough
of it for the bound never to bite (`kahnLoop_measure` below). -/
def kahnLoop (adj : String → List String) :
    Nat → List String → (String → Int) → List String → List String
  | 0, _, _, sorted => sorted
  | _ + 1, [], _, sorted => sorted
  | fuel + 1, currentName :: fila, grau, sorted =>
      let pr := processNeighbors grau (adj currentName)
      kahnLoop adj fuel (fila ++ pr.2) pr.1 (sorted ++ [currentName])

/-- The total pending in-degree: the fuel the queue loop can still consume. -/
def totalGrau (names : List String) (edges : List (String × String)) : Nat :=
  (names.map (fun n => (grau0 edges n).toNat)).sum

/-- The sorted declared names produced by Kahn's algorithm: seed the queue
with the zero-in-degree names, then drain it. -/
def kahnNames (names : List String) (edges : List (String × String)) : List String :=
  let fila := names.filter (fun n => grau0 edges n == 0)
  kahnLoop (adjacencia edges) (fila.length + totalGrau names edges) fila (grau0 edges) []

/-- The `typeDefinitions` map built by the collection loop. -/
def typeDefs (rawTypes : List Value) : List (String × Value) :=
  (collectTypes rawTypes).1

/-- The `typeNames` set built by the collection loop (in first-appearance
order). -/
def declaredNames (rawTypes : List Value) : List String :=
  (collectTypes rawTypes).2

/-- The dependency edges of a `types` sequence. -/
def typeEdges (rawTypes : List Value) : List (String × String) :=
  kahnEdges (declaredNames rawTypes) (typeDefs rawTypes)

/-- The names in the order Kahn's algorithm outputs them. -/
def sortedNamesOf (rawTypes : List Value) : List String :=
  kahnNames (declaredNames rawTypes) (typeEdges rawTypes)

/-- The `sortedTypes` slice: the definitions of the sorted names (Go appends
`typeDefinitions[currentName]`, a `nil` interface were the name unbound). -/
def sortedTypesOf (rawTypes : List Value) : List Value :=
  (sortedNamesOf rawTypes).map (fun n => (mapGet (typeDefs rawTypes) n).getD .null)

/-- The number of edges into `m` whose source has already been processed
(appended to `S`): the decrements `grauEntrada[m]` has received. -/
def processedInto (edges : List (String × String)) (S : List String) (m : String) : Nat :=
  (edges.filter (fun e => decide (e.1 ∈ S) && (e.2 == m))).length

/-- The total number of edges into `m`. -/
def inDegree (edges : List (String × String)) (m : String) : Nat :=
  (edges.filter (fun e => e.2 == m)).length

/-- `sortTypesByDependency` (types.go): check `types` and `query`, run Kahn's
algorithm, fail when the sorted sequence is shorter than `types`, and rebuild
the mapping from scratch with exactly the keys `types` (sorted) and `query`
(the Go code deletes every key of the map before reinserting those two). -/
def sortTypesByDependency (schema : List (String × Value)) :
    Except String (List (String × Value)) :=
  match mapGet schema "types" with
  | none => .error "o campo 'types' nao foi encontrado"
  | some rawTypesVal =>
      match rawTypesVal with
      | .arr rawTypes =>
          match mapGet schema "query" with
          | none => .error "o campo 'query' nao foi encontrado"
          | some query =>
              let sortedTypes := sortedTypesOf rawTypes
              if sortedTypes.length ≠ rawTypes.length then
                .error "dependencia circular detectada no schema de tipos"
              else
                .ok [("types", .arr sortedTypes), ("query", query)]
      | _ => .error "o campo 'types' nao e um slice"

/-! ### The façade (`builder.go`)

The parameter-store collaborator is abstracted as the total function `fetch`
(its fetch errors are out of scope), and the document is returned as a tree —
serialization to bytes is the encoder collaborator. -/

/-- The JSON-mode accumulation loop of `BuildConfigFromPrefixes`: build each
prefix's tree and deep-merge it into the accumulator. -/
def jsonAccumulate (fetch : String → List Param) (opts : BuildOptions) :
    List (String × Value) :=
  opts.prefixes.foldl (fun configMap pfx =>
    mergeMaps configMap (buildStructure (fetch pfx) pfx opts.stripPrefix opts.sortByDependencies)) []

/-- `(*ConfigBuilder).BuildConfigFromPrefixes`. -/
def BuildConfigFromPrefixes (fetch : String → List Param)
    (tryMap : String → Option (List (String × Value)))
    (tryList : String → Option (List Value)) (opts : BuildOptions) :
    Except String (List (String × Value)) :=
  if opts.yamlRules then
    opts.prefixes.foldlM (fun configMap pfx =>
      match buildYAMLStructure tryMap tryList (fetch pfx) pfx opts.stripPrefix with
      | .error e => .error e
      | .ok prefixConfig => .ok (mergeMaps configMap prefixConfig)) []
  else
    let configMap := jsonAccumulate fetch opts
    if opts.sortByDependencies then
      match sortTypesByDependency configMap with
      | .error e => .error ("erro ao ordenar tipos por dependencia: " ++ e)
      | .ok sortedMap => .ok sortedMap
    else
      .ok configMap

/-- `(*ConfigBuilder).BuildJsonFromPrefix`. -/
def BuildJsonFromPrefix (fetch : String → List Param)
    (tryMap : String → Option (List (String × Value)))
    (tryList : String → Option (List Value)) (pfx : String)
    (sortByDependencies : Bool) : Except String (List (String × Value)) :=
  BuildConfigFromPrefixes fetch tryMap tryList
    ⟨[pfx], true, true, false, sortByDependencies⟩

/-- `(*ConfigBuilder).BuildYamlFromPrefix`. -/
def BuildYamlFromPrefix (fetch : String → List Param)
    (tryMap : String → Option (List (String × Value)))
    (tryList : String → Option (List Value)) (pfx : String)
    (sortByDependencies : Bool) : Except String (List (String × Value)) :=
  BuildConfigFromPrefixes fetch tryMap tryList
    ⟨[pfx], true, false, true, sortByDependencies⟩

/-! ### Specification-side definitions

These three definitions come from the spec's words, not from the source: the
key-wise merge contract of §4.2, and the graph-theoretic hypotheses of the
dependency-sort claims. -/

/-- The spec §4.2 contract for one key: recursive merge on two mappings,
concatenation on two sequences, otherwise the `src` side (or whichever side is
present) wins. -/
def mergeSpec (dv sv : Option Value) : Option Value :=
  match dv, sv with
  | dvv, none => dvv
  | some (.obj destMap), some (.obj srcMap) => some (.obj (mergeMaps destMap srcMap))
  | some (.arr destArray), some (.arr srcArray) => some (.arr (destArray ++ srcArray))
  | _, some svv => some svv

/-- A well-formed `types` sequence: every entry is a mapping with a string
`name`, and the names are pairwise distinct. -/
def WellFormedTypes (rawTypes : List Value) : Prop :=
  (∀ t ∈ rawTypes, (typeName t).isSome) ∧ (rawTypes.map typeName).Nodup

/-- Acyclicity of an edge list: some ranking of the nodes increases along
every edge (for a finite graph this is the usual "no directed cycle"). -/
def AcyclicEdges (edges : List (String × String)) : Prop :=
  ∃ rank : String → Nat, ∀ e ∈ edges, rank e.1 < rank e.2

/-- A nonempty directed path along `edges`. -/
inductive EdgeChain (edges : List (String × String)) : String → String → Prop where
  | single {a b : String} : (a, b) ∈ edges → EdgeChain edges a b
  | cons {a b c : String} : (a, b) ∈ edges → EdgeChain edges b c → EdgeChain edges a c

/-- A sample `types` sequence where `B` depends on `A` and `A` is listed
last, so sorting must move `A` first. -/
def twoTypes : List Value :=
  [.obj [("name", .str "B"), ("fields", .arr [.obj [("ofType", .str "A")]])],
   .obj [("name", .str "A")]]

/-- A sample `types` sequence whose dependency graph is the 3-cycle
`A â C â B â A` (each type has one field referencing the next name). -/
def cycleTypes : List Value :=
  [.obj [("name", .str "A"), ("fields", .arr [.obj [("ofType", .str "B")]])],
   .obj [("name", .str "B"), ("fields", .arr [.obj [("ofType", .str "C")]])],
   .obj [("name", .str "C"), ("fields", .arr [.obj [("ofType", .str "A")]])]]

/-! ## Lemmas: association-list maps -/

theorem mapGet_mapSet {α : Type} (m : List (String × α)) (k key : String) (v : α) :
    mapGet (mapSet m k v) key = if k = key then some v else mapGet m key := by
  induction m with
  | nil => simp [mapSet, mapGet]
  | cons p rest ih =>
      obtain ⟨pk, pv⟩ := p
      by_cases hpk : pk = k
      · subst hpk
        simp only [mapSet, if_pos rfl, mapGet]
        by_cases hk : pk = key <;> simp [hk]
      · simp only [mapSet, if_neg hpk, mapGet]
        by_cases hk : pk = key
        · subst hk
          have : ¬ k = pk := fun h => hpk h.symm
          simp [this]
        · simp [hk, ih]

theorem mapGet_mapSet_self {α : Type} (m : List (String × α)) (k : String) (v : α) :
    mapGet (mapSet m k v) k = some v := by
  simp [mapGet_mapSet]

theorem mapGet_mapSet_ne {α : Type} (m : List (String × α)) (k key : String) (v : α)
    (h : k ≠ key) : mapGet (mapSet m k v) key = mapGet m key := by
  simp [mapGet_mapSet, h]

theorem mapGet_eq_none_iff {α : Type} (m : List (String × α)) (key : String) :
    mapGet m key = none ↔ key ∉ m.map Prod.fst := by
  induction m with
  | nil => simp [mapGet]
  | cons p rest ih =>
      obtain ⟨pk, pv⟩ := p
      by_cases hk : pk = key
      · subst hk; simp [mapGet]
      · have hne : ¬ key = pk := fun h => hk h.symm
        simp only [mapGet, if_neg hk, ih, List.map_cons, List.mem_cons, not_or]
        simp [hne]

theorem mapGet_isSome_of_mem_keys {α : Type} (m : List (String × α)) (key : String)
    (h : key ∈ m.map Prod.fst) : (mapGet m key).isSome := by
  cases hg : mapGet m key with
  | none => exact absurd ((mapGet_eq_none_iff m key).1 hg) (not_not_intro h)
  | some v => rfl

theorem keys_mapSet {α : Type} (m : List (String × α)) (k : String) (v : α) :
    (mapSet m k v).map Prod.fst = if k ∈ m.map Prod.fst then m.map Prod.fst
      else m.map Prod.fst ++ [k] := by
  induction m with
  | nil => simp [mapSet]
  | cons p rest ih =>
      obtain ⟨pk, pv⟩ := p
      by_cases hpk : pk = k
      · subst hpk; simp [mapSet]
      · have : ¬ k = pk := fun h => hpk h.symm
        by_cases hmem : k ∈ rest.map Prod.fst <;>
          simp [mapSet, hpk, ih, this, hmem]

theorem keysNodup_mapSet {α : Type} (m : List (String × α)) (k : String) (v : α)
    (h : (m.map Prod.fst).Nodup) : ((mapSet m k v).map Prod.fst).Nodup := by
  rw [keys_mapSet]
  by_cases hmem : k ∈ m.map Prod.fst
  · simpa [hmem] using h
  · simp only [hmem, if_false]
    exact h.append (List.nodup_singleton k)
      (fun a ha hb => hmem ((List.mem_singleton.1 hb) ▸ ha))

theorem mem_mapSet {α : Type} (m : List (String × α)) (k : String) (v : α)
    (a : String) (b : α) (h : (a, b) ∈ mapSet m k v) : (a, b) ∈ m ∨ (a = k ∧ b = v) := by
  induction m with
  | nil =>
      simp only [mapSet, List.mem_singleton, Prod.mk.injEq] at h
      exact Or.inr h
  | cons p rest ih =>
      obtain ⟨pk, pv⟩ := p
      by_cases hpk : pk = k
      · subst hpk
        simp [mapSet, Prod.mk.injEq] at h
        rcases h with h | h
        · exact Or.inr h
        · exact Or.inl (List.mem_cons_of_mem _ h)
      · simp only [mapSet, if_neg hpk, List.mem_cons] at h
        rcases h with h | h
        · exact Or.inl (List.mem_cons.2 (Or.inl h))
        · rcases ih h with h1 | h1
          · exact Or.inl (List.mem_cons_of_mem _ h1)
          · exact Or.inr h1

/-- A keyed entry of a `Nodup`-keyed map splits the list around it. -/
theorem mapGet_eq_some_split {α : Type} (m : List (String × α)) (key : String) (v : α)
    (hnd : (m.map Prod.fst).Nodup) (h : mapGet m key = some v) :
    ∃ l1 l2, m = l1 ++ (key, v) :: l2 ∧ key ∉ l1.map Prod.fst ∧ key ∉ l2.map Prod.fst := by
  induction m with
  | nil => simp [mapGet] at h
  | cons p rest ih =>
      obtain ⟨pk, pv⟩ := p
      simp only [List.map_cons, List.nodup_cons] at hnd
      by_cases hpk : pk = key
      · subst hpk
        simp [mapGet] at h
        subst h
        exact ⟨[], rest, by simp, by simp, hnd.1⟩
      · simp only [mapGet, if_neg hpk] at h
        obtain ⟨l1, l2, heq, h1, h2⟩ := ih hnd.2 h
        refine ⟨(pk, pv) :: l1, l2, by simp [heq], ?_, h2⟩
        simp only [List.map_cons, List.mem_cons, not_or]
        exact ⟨fun hc => hpk hc.symm, h1⟩

/-! ## Lemmas: the deep merger (claim C4) -/

theorem mergeSpec_none (dv : Option Value) : mergeSpec dv none = dv := by
  cases dv with
  | none => rfl
  | some v => cases v <;> rfl

/-- `mergeOne` only touches its own key. -/
theorem mapGet_mergeOne_ne (dest : List (String × Value)) (k : String) (sv : Value)
    (key : String) (h : k ≠ key) :
    mapGet (mergeOne dest k sv) key = mapGet dest key := by
  rw [mergeOne.eq_def]
  rcases hdv : mapGet dest k with _ | dv
  · cases sv <;> simp [mapGet_mapSet_ne _ _ _ _ h]
  · cases dv <;> cases sv <;> simp [mapGet_mapSet_ne _ _ _ _ h]

/-- At its own key, `mergeOne` realizes the §4.2 one-key contract. -/
theorem mapGet_mergeOne_self (dest : List (String × Value)) (k : String) (sv : Value) :
    mapGet (mergeOne dest k sv) k = mergeSpec (mapGet dest k) (some sv) := by
  rw [mergeOne.eq_def]
  rcases hdv : mapGet dest k with _ | dv
  · cases sv <;> simp [mergeSpec, mapGet_mapSet_self]
  · cases dv <;> cases sv <;> simp [mergeSpec, mapGet_mapSet_self]

/-- `mergeMaps` never removes a key. -/
theorem mapGet_mergeMaps_isSome (dest src : List (String × Value)) (key : String)
    (h : (mapGet dest key).isSome) : (mapGet (mergeMaps dest src) key).isSome := by
  induction src generalizing dest with
  | nil => simpa [mergeMaps] using h
  | cons p rest ih =>
      obtain ⟨sk, sv⟩ := p
      rw [mergeMaps]
      apply ih
      by_cases hk : sk = key
      · subst hk
        rw [mapGet_mergeOne_self]
        rcases hdv : mapGet dest sk with _ | dv
        · cases sv <;> simp [mergeSpec]
        · cases dv <;> cases sv <;> simp [mergeSpec]
      · rw [mapGet_mergeOne_ne _ _ _ _ hk]
        exact h

/-- Claim C4 core: `mergeMaps` is the key-wise §4.2 contract, at every key. -/
theorem mapGet_mergeMaps (dest src : List (String × Value)) (key : String)
    (hnd : (src.map Prod.fst).Nodup) :
    mapGet (mergeMaps dest src) key = mergeSpec (mapGet dest key) (mapGet src key) := by
  induction src generalizing dest with
  | nil => simp [mergeMaps, mapGet, mergeSpec_none]
  | cons p rest ih =>
      obtain ⟨sk, sv⟩ := p
      simp only [List.map_cons, List.nodup_cons] at hnd
      rw [mergeMaps]
      rw [ih _ hnd.2]
      by_cases hk : sk = key
      · subst hk
        have hnone : mapGet rest sk = none := (mapGet_eq_none_iff rest sk).2 hnd.1
        rw [hnone, mergeSpec_none, mapGet_mergeOne_self]
        simp [mapGet]
      · rw [mapGet_mergeOne_ne _ _ _ _ hk]
        simp [mapGet, hk]

/-! ## Lemmas: the array/object policy (claim C7) -/

theorem shouldBeArray_eq_all_zero (levelParams : List (String × Param))
    (h : 1 < levelParams.length) :
    shouldBeArray levelParams = levelParams.all (fun c => slashCount c.1 == 0) := by
  cases levelParams with
  | nil => simp at h
  | cons c rest =>
      obtain ⟨childPath, p⟩ := c
      simp only [List.length_cons] at h
      have hlen : ¬ ((childPath, p) :: rest).length ≤ 1 := by
        simp only [List.length_cons]
        omega
      rw [shouldBeArray.eq_def]
      simp only [hlen, if_false, List.all_cons]
      by_cases h0 : slashCount childPath = 0
      · simp [h0, Bool.and_comm]
      · have hb : (slashCount childPath == 0) = false := by
          simpa using h0
        simp [hb]

/-! ## Lemmas: the YAML-rules builder (claim C9) -/

/-- A parameter whose value parses as a sequence either trips the duplicate
check or binds its rule key. -/
theorem yamlStep_listParsed (tryMap : String → Option (List (String × Value)))
    (tryList : String → Option (List Value)) (basePath : String) (stripPfx : Bool)
    (r : List (String × Value)) (p : Param) (l : List Value)
    (hs : containsSlash (extractRelativePath p.name basePath stripPfx) = false)
    (hm : tryMap p.value = none) (hl : tryList p.value = some l) :
    yamlStep tryMap tryList basePath stripPfx r p =
      match mapGet r (ruleKey p basePath stripPfx) with
      | some _ => .error ("chave de regra duplicada: " ++ ruleKey p basePath stripPfx)
      | none => .ok (mapSet r (ruleKey p basePath stripPfx) (.arr l)) := by
  simp only [yamlStep, ruleKey, hs, hm, hl, Bool.false_eq_true, if_false]

/-- A successful `yamlStep` never removes a key of the accumulator. -/
theorem yamlStep_ok_presence (tryMap : String → Option (List (String × Value)))
    (tryList : String → Option (List Value)) (basePath : String) (stripPfx : Bool)
    (r r' : List (String × Value)) (p : Param) (k : String)
    (h : yamlStep tryMap tryList basePath stripPfx r p = .ok r')
    (hk : (mapGet r k).isSome) : (mapGet r' k).isSome := by
  simp only [yamlStep] at h
  by_cases hcs : containsSlash (extractRelativePath p.name basePath stripPfx) = true
  · simp [hcs] at h
  · simp only [hcs, if_false] at h
    cases htm : tryMap p.value with
    | some m =>
        rw [htm] at h
        simp only [Bool.false_eq_true, if_false, Except.ok.injEq] at h
        subst h
        exact mapGet_mergeMaps_isSome r m k hk
    | none =>
        rw [htm] at h
        cases htl : tryList p.value with
        | none => rw [htl] at h; simp at h
        | some l =>
            rw [htl] at h
            cases hget : mapGet r (if extractRelativePath p.name basePath stripPfx = ""
                then getLastPathSegment p.name else extractRelativePath p.name basePath stripPfx) with
            | some v => rw [hget] at h; simp at h
            | none =>
                rw [hget] at h
                simp only [Bool.false_eq_true, if_false, Except.ok.injEq] at h
                subst h
                rw [mapGet_mapSet]
                by_cases hkk : (if extractRelativePath p.name basePath stripPfx = ""
                    then getLastPathSegment p.name
                    else extractRelativePath p.name basePath stripPfx) = k
                · simp [hkk]
                · simp [hkk, hk]

/-- Presence of a key survives a successful tail of the YAML fold. -/
theorem yamlFold_ok_presence (tryMap : String → Option (List (String × Value)))
    (tryList : String → Option (List Value)) (basePath : String) (stripPfx : Bool)
    (ps : List Param) (r res : List (String × Value)) (k : String)
    (h : List.foldlM (yamlStep tryMap tryList basePath stripPfx) r ps = .ok res)
    (hk : (mapGet r k).isSome) : (mapGet res k).isSome := by
  induction ps generalizing r with
  | nil =>
      simp only [List.foldlM_nil] at h
      cases h
      exact hk
  | cons p ps ih =>
      rw [List.foldlM_cons] at h
      cases hstep : yamlStep tryMap tryList basePath stripPfx r p with
      | error e => rw [hstep] at h; simp [Bind.bind, Except.bind] at h
      | ok r' =>
          rw [hstep] at h
          simp only [Bind.bind, Except.bind] at h
          exact ih r' h (yamlStep_ok_presence tryMap tryList basePath stripPfx r r' p k hstep hk)

/-! ## Lemmas: the root level of tree assembly (claim C6) -/

/-- Entries of the sentinel root level that stem from an empty relative path
are keyed by their parameter's last full-path segment. -/
def RootKeyed (basePath : String) (stripPfx : Bool)
    (levels : List (String × List (String × Param))) : Prop :=
  ∀ lv, mapGet levels "." = some lv → ∀ k q, (k, q) ∈ lv →
    extractRelativePath q.name basePath stripPfx = "" → k = getLastPathSegment q.name

theorem levelsInsert_mapGet_ne (levels : List (String × List (String × Param)))
    (lk ck : String) (p : Param) (key : String) (h : lk ≠ key) :
    mapGet (levelsInsert levels lk ck p) key = mapGet levels key := by
  rw [levelsInsert.eq_def]
  cases hg : mapGet levels lk <;> simp [mapGet_mapSet_ne _ _ _ _ h]

theorem levelsInsert_keysNodup (levels : List (String × List (String × Param)))
    (lk ck : String) (p : Param) (h : (levels.map Prod.fst).Nodup) :
    ((levelsInsert levels lk ck p).map Prod.fst).Nodup := by
  rw [levelsInsert.eq_def]
  cases hg : mapGet levels lk <;> exact keysNodup_mapSet _ _ _ h

theorem orgStep_keysNodup (basePath : String) (stripPfx : Bool)
    (levels : List (String × List (String × Param))) (param : Param)
    (h : (levels.map Prod.fst).Nodup) :
    ((orgStep basePath stripPfx levels param).map Prod.fst).Nodup := by
  rw [orgStep.eq_def]
  by_cases hrel : extractRelativePath param.name basePath stripPfx = ""
  · simp only [hrel, if_pos rfl]
    exact levelsInsert_keysNodup _ _ _ _ h
  · simp only [hrel, if_false]
    cases hsp : splitSlash (extractRelativePath param.name basePath stripPfx) with
    | nil => exact h
    | cons a l =>
        cases l with
        | nil => exact levelsInsert_keysNodup _ _ _ _ h
        | cons b l2 => exact levelsInsert_keysNodup _ _ _ _ h

theorem orgStep_rootKeyed (basePath : String) (stripPfx : Bool)
    (levels : List (String × List (String × Param))) (param : Param)
    (inv : RootKeyed basePath stripPfx levels) :
    RootKeyed basePath stripPfx (orgStep basePath stripPfx levels param) := by
  have hinsert_ne : ∀ lk ck (q : Param), lk ≠ "." →
      RootKeyed basePath stripPfx (levelsInsert levels lk ck q) := by
    intro lk ck q hlk lv hlv k q2 hmem hq2
    rw [levelsInsert_mapGet_ne levels lk ck q "." hlk] at hlv
    exact inv lv hlv k q2 hmem hq2
  have hinsert_dot : ∀ ck (q : Param),
      (extractRelativePath q.name basePath stripPfx = "" →
        ck = getLastPathSegment q.name) →
      RootKeyed basePath stripPfx (levelsInsert levels "." ck q) := by
    intro ck q hck lv hlv k q2 hmem hq2
    rw [levelsInsert.eq_def] at hlv
    cases hg : mapGet levels "." with
    | some lv0 =>
        rw [hg] at hlv
        simp only [mapGet_mapSet_self, Option.some.injEq] at hlv
        subst hlv
        rcases mem_mapSet lv0 ck q k q2 hmem with hold | hnew
        · exact inv lv0 hg k q2 hold hq2
        · obtain ⟨hk, hq⟩ := hnew
          subst hk; subst hq
          exact hck hq2
    | none =>
        rw [hg] at hlv
        simp only [mapGet_mapSet_self, Option.some.injEq] at hlv
        subst hlv
        simp only [List.mem_singleton, Prod.mk.injEq] at hmem
        obtain ⟨hk, hq⟩ := hmem
        subst hk; subst hq
        exact hck hq2
  rw [orgStep.eq_def]
  by_cases hrel : extractRelativePath param.name basePath stripPfx = ""
  · simp only [hrel, if_pos rfl]
    exact hinsert_dot _ _ (fun _ => rfl)
  · simp only [hrel, if_false]
    cases hsp : splitSlash (extractRelativePath param.name basePath stripPfx) with
    | nil => exact inv
    | cons a l =>
        cases l with
        | nil =>
            by_cases ha : a = "."
            · subst ha
              exact hinsert_dot _ _ (fun hc => absurd hc hrel)
            · exact hinsert_ne _ _ _ ha
        | cons b l2 =>
            by_cases ha : a = "."
            · subst ha
              exact hinsert_dot _ _ (fun hc => absurd hc hrel)
            · exact hinsert_ne _ _ _ ha

theorem organize_keysNodup (params : List Param) (basePath : String) (stripPfx : Bool) :
    ((organizeParametersByLevel params basePath stripPfx).map Prod.fst).Nodup := by
  have aux : ∀ (ps : List Param) (levels : List (String × List (String × Param))),
      (levels.map Prod.fst).Nodup →
      ((ps.foldl (orgStep basePath stripPfx) levels).map Prod.fst).Nodup := by
    intro ps
    induction ps with
    | nil => intro levels h; simpa using h
    | cons p ps ih =>
        intro levels h
        rw [List.foldl_cons]
        exact ih _ (orgStep_keysNodup basePath stripPfx levels p h)
  exact aux params [] (by simp)

theorem organize_rootKeyed (params : List Param) (basePath : String) (stripPfx : Bool) :
    RootKeyed basePath stripPfx (organizeParametersByLevel params basePath stripPfx) := by
  have aux : ∀ (ps : List Param) (levels : List (String × List (String × Param))),
      RootKeyed basePath stripPfx levels →
      RootKeyed basePath stripPfx (ps.foldl (orgStep basePath stripPfx) levels) := by
    intro ps
    induction ps with
    | nil => intro levels h; simpa using h
    | cons p ps ih =>
        intro levels h
        rw [List.foldl_cons]
        exact ih _ (orgStep_rootKeyed basePath stripPfx levels p h)
  exact aux params [] (fun lv hlv => by simp [mapGet] at hlv)

/-- `processNestedLevel` writes only its own level key. -/
theorem processNestedLevel_mapGet_ne (r : List (String × Value)) (lk : String)
    (lv : List (String × Param)) (key : String) (h : lk ≠ key) :
    mapGet (processNestedLevel r lk lv) key = mapGet r key := by
  rw [processNestedLevel.eq_def]
  by_cases h1 : lv.length = 1
  · rcases lv with _ | ⟨x, rest⟩
    · simp at h1
    · rcases rest with _ | ⟨y, rest2⟩
      · simp only [h1, if_pos rfl, List.foldl_cons, List.foldl_nil]
        by_cases hdot : x.1 = "." <;> simp [hdot, mapGet_mapSet_ne _ _ _ _ h]
      · simp at h1
  · simp only [h1, if_false]
    by_cases harr : shouldBeArray lv <;> simp [harr, mapGet_mapSet_ne _ _ _ _ h]

theorem foldl_genStep_mapGet_ne (L : List (String × List (String × Param)))
    (r : List (String × Value)) (key : String)
    (h : ∀ l ∈ L, l.1 ≠ "." ∧ l.1 ≠ key) :
    mapGet (L.foldl genStep r) key = mapGet r key := by
  induction L generalizing r with
  | nil => simp
  | cons l L ih =>
      rw [List.foldl_cons]
      have hl := h l (List.mem_cons_self l L)
      rw [ih _ (fun x hx => h x (List.mem_cons_of_mem l hx))]
      rw [genStep, if_neg hl.1]
      exact processNestedLevel_mapGet_ne r l.1 l.2 key hl.2

/-! ## Lemmas: Kahn's algorithm, counting edges (claims C1 and C2) -/

theorem grau0_eq_inDegree (edges : List (String × String)) (m : String) :
    grau0 edges m = Int.ofNat (inDegree edges m) := by
  rw [grau0, inDegree]
  congr 1
  induction edges with
  | nil => rfl
  | cons e rest ih =>
      simp only [List.map_cons, List.count_cons, List.filter_cons]
      by_cases he : e.2 = m
      · have hb : (e.2 == m) = true := by simpa using he
        simp [hb, ih]
      · have hb : (e.2 == m) = false := by simpa using he
        simp [hb, ih]

theorem processedInto_le_inDegree (edges : List (String × String)) (S : List String)
    (m : String) : processedInto edges S m ≤ inDegree edges m := by
  rw [processedInto, inDegree]
  induction edges with
  | nil => simp
  | cons e rest ih =>
      simp only [List.filter_cons]
      by_cases he : (e.2 == m) = true
      · by_cases hs : (decide (e.1 ∈ S)) = true
        · simp [he, hs]; omega
        · simp only [hs, Bool.false_and, Bool.false_eq_true, if_false, he, if_true,
            List.length_cons]
          omega
      · have hs : (decide (e.1 ∈ S) && (e.2 == m)) = false := by
          simp [he]
        simp only [hs, if_false, Bool.not_eq_true] at *
        simp [he, ih]

theorem processedInto_nil (edges : List (String × String)) (m : String) :
    processedInto edges [] m = 0 := by
  rw [processedInto]
  induction edges with
  | nil => rfl
  | cons e rest ih => simp only [List.filter_cons, Bool.false_and,
      Bool.false_eq_true, if_false]; exact ih

theorem adj_count_eq (edges : List (String × String)) (current m : String) :
    (adjacencia edges current).count m =
      (edges.filter (fun e => (e.1 == current) && (e.2 == m))).length := by
  rw [adjacencia]
  induction edges with
  | nil => rfl
  | cons e rest ih =>
      simp only [List.filter_cons]
      by_cases h1 : e.1 = current
      · by_cases h2 : e.2 = m
        · simp [h1, h2, List.count_cons, ih]
        · have hb : (e.2 == m) = false := by simpa using h2
          simp [h1, hb, List.count_cons, ih]
      · have hb : (e.1 == current) = false := by simpa using h1
        have hb2 : (decide (e.1 = current)) = false := by simpa using h1
        simp [hb, hb2, ih]

theorem processedInto_append (edges : List (String × String)) (S : List String)
    (current m : String) (h : current ∉ S) :
    processedInto edges (S ++ [current]) m =
      processedInto edges S m + (adjacencia edges current).count m := by
  rw [adj_count_eq, processedInto, processedInto]
  induction edges with
  | nil => rfl
  | cons e rest ih =>
      simp only [List.filter_cons]
      by_cases h2 : e.2 = m
      · have hb2 : (e.2 == m) = true := by simpa using h2
        by_cases h1 : e.1 = current
        · have hmemS : (decide (e.1 ∈ S)) = false := by
            simp only [decide_eq_false_iff_not]
            rw [h1]; exact h
          have hmemA : (decide (e.1 ∈ S ++ [current])) = true := by
            simp [h1]
          have hb1 : (e.1 == current) = true := by simpa using h1
          simp only [hmemS, hmemA, hb1, hb2, Bool.true_and, Bool.and_true, Bool.false_and,
            Bool.false_eq_true, if_true, if_false, List.length_cons]
          omega
        · have hb1 : (e.1 == current) = false := by simpa using h1
          by_cases hS : e.1 ∈ S
          · have hmemS : (decide (e.1 ∈ S)) = true := by simpa using hS
            have hmemA : (decide (e.1 ∈ S ++ [current])) = true := by simp [hS]
            simp only [hmemS, hmemA, hb1, hb2, Bool.true_and, Bool.and_true, Bool.false_and,
              Bool.false_eq_true, if_true, if_false, List.length_cons]
            omega
          · have hmemS : (decide (e.1 ∈ S)) = false := by simpa using hS
            have hmemA : (decide (e.1 ∈ S ++ [current])) = false := by
              simp [hS, h1]
            simp only [hmemS, hmemA, hb1, hb2, Bool.false_and, if_false]
            exact ih
      · have hb2 : (e.2 == m) = false := by simpa using h2
        simp only [hb2, Bool.and_false, if_false]
        exact ih

theorem processedInto_full (edges : List (String × String)) (S : List String) (m : String)
    (h : ∀ e ∈ edges, e.2 = m → e.1 ∈ S) :
    processedInto edges S m = inDegree edges m := by
  rw [processedInto, inDegree]
  induction edges with
  | nil => rfl
  | cons e rest ih =>
      have ih2 := ih (fun e' he' => h e' (List.mem_cons_of_mem e he'))
      simp only [List.filter_cons]
      by_cases h2 : e.2 = m
      · have hb2 : (e.2 == m) = true := by simpa using h2
        have hS : (decide (e.1 ∈ S)) = true := by
          simpa using h e (List.mem_cons_self e rest) h2
        simp [hb2, hS, ih2]
      · have hb2 : (e.2 == m) = false := by simpa using h2
        simp [hb2, ih2]

theorem processedInto_lt (edges : List (String × String)) (S : List String) (m : String)
    (h : processedInto edges S m < inDegree edges m) :
    ∃ e ∈ edges, e.2 = m ∧ e.1 ∉ S := by
  induction edges with
  | nil => simp [processedInto, inDegree] at h
  | cons e rest ih =>
      by_cases h2 : e.2 = m
      · by_cases h1 : e.1 ∈ S
        · have heq : processedInto (e :: rest) S m = processedInto rest S m + 1 := by
            rw [processedInto, processedInto]
            have hb : (decide (e.1 ∈ S) && (e.2 == m)) = true := by simp [h1, h2]
            simp [List.filter_cons, hb]
          have heq2 : inDegree (e :: rest) m = inDegree rest m + 1 := by
            rw [inDegree, inDegree]
            have hb : (e.2 == m) = true := by simpa using h2
            simp [List.filter_cons, hb]
          rw [heq, heq2] at h
          obtain ⟨e', he', hm, hs⟩ := ih (by omega)
          exact ⟨e', List.mem_cons_of_mem e he', hm, hs⟩
        · exact ⟨e, List.mem_cons_self e rest, h2, h1⟩
      · have heq : processedInto (e :: rest) S m = processedInto rest S m := by
          rw [processedInto, processedInto]
          have hb : (e.2 == m) = false := by simpa using h2
          simp [List.filter_cons, hb]
        have heq2 : inDegree (e :: rest) m = inDegree rest m := by
          rw [inDegree, inDegree]
          have hb : (e.2 == m) = false := by simpa using h2
          simp [List.filter_cons, hb]
        rw [heq, heq2] at h
        obtain ⟨e', he', hm, hs⟩ := ih h
        exact ⟨e', List.mem_cons_of_mem e he', hm, hs⟩

theorem mem_adjacencia (edges : List (String × String)) (d z : String)
    (h : z ∈ adjacencia edges d) : (d, z) ∈ edges := by
  rw [adjacencia] at h
  obtain ⟨e, he, hz⟩ := List.mem_map.1 h
  obtain ⟨hmem, hcond⟩ := List.mem_filter.1 he
  have hd : e.1 = d := by simpa using hcond
  obtain ⟨e1, e2⟩ := e
  simp only at hz hd
  subst hz; subst hd
  exact hmem

/-! ## Lemmas: the neighbour-processing loop of Kahn's algorithm -/

theorem intOfNat_eq (n : Nat) : Int.ofNat n = (n : Int) := rfl

theorem processNeighbors_cons_fst (n : String) (rest : List String) (grau : String → Int) :
    (processNeighbors grau (n :: rest)).1 =
      (processNeighbors (fun x => if x = n then grau n - 1 else grau x) rest).1 := by
  rw [processNeighbors]
  by_cases h0 : grau n - 1 = 0 <;> simp [h0]

theorem processNeighbors_fst (ns : List String) (grau : String → Int) (m : String) :
    (processNeighbors grau ns).1 m = grau m - (ns.count m : Int) := by
  induction ns generalizing grau with
  | nil => simp [processNeighbors]
  | cons n rest ih =>
      rw [processNeighbors_cons_fst, ih]
      by_cases hm : m = n
      · subst hm
        have hc : (m :: rest).count m = rest.count m + 1 := by
          simp [List.count_cons]
        rw [if_pos rfl, hc]
        push_cast
        omega
      · have hnm : ¬ n = m := fun h => hm h.symm
        have hc : (n :: rest).count m = rest.count m := by
          simp [List.count_cons, hnm]
        rw [if_neg hm, hc]

theorem processNeighbors_mem (ns : List String) (grau : String → Int) (m : String) :
    m ∈ (processNeighbors grau ns).2 ↔
      m ∈ ns ∧ 1 ≤ grau m ∧ grau m ≤ (ns.count m : Int) := by
  induction ns generalizing grau with
  | nil => simp [processNeighbors]
  | cons n rest ih =>
      have memtail := ih (fun x => if x = n then grau n - 1 else grau x)
      rw [processNeighbors]
      by_cases h0 : grau n - 1 = 0
      · rw [if_pos h0]
        dsimp only
        rw [List.mem_cons, memtail]
        by_cases hm : m = n
        · subst hm
          have hgm : grau m = 1 := by omega
          have hc : (m :: rest).count m = rest.count m + 1 := by
            simp [List.count_cons]
          rw [hc]
          constructor
          · intro _
            exact ⟨List.mem_cons_self m rest, by omega, by push_cast; omega⟩
          · intro _
            exact Or.inl rfl
        · have hnm : ¬ n = m := fun h => hm h.symm
          have hg2 : (if m = n then grau n - 1 else grau m) = grau m := if_neg hm
          have hc : (n :: rest).count m = rest.count m := by
            simp [List.count_cons, hnm]
          rw [hg2, hc, List.mem_cons]
          constructor
          · rintro (hc2 | ⟨hmem, hle, hge⟩)
            · exact absurd hc2 hm
            · exact ⟨Or.inr hmem, hle, hge⟩
          · rintro ⟨hc2 | hmem, hle, hge⟩
            · exact absurd hc2 hm
            · exact Or.inr ⟨hmem, hle, hge⟩
      · rw [if_neg h0]
        dsimp only
        rw [memtail]
        by_cases hm : m = n
        · subst hm
          have hg2 : (if m = m then grau m - 1 else grau m) = grau m - 1 := if_pos rfl
          have hc : (m :: rest).count m = rest.count m + 1 := by
            simp [List.count_cons]
          rw [hg2, hc, List.mem_cons]
          constructor
          · rintro ⟨hmem, hle, hge⟩
            refine ⟨Or.inr hmem, by omega, by push_cast at hge ⊢; omega⟩
          · rintro ⟨_, hle, hge⟩
            have h2 : 2 ≤ grau m := by omega
            push_cast at hge
            have hcount : 1 ≤ rest.count m := by omega
            have hmem : m ∈ rest := by
              rw [← List.count_pos_iff]
              omega
            exact ⟨hmem, by omega, by omega⟩
        · have hnm : ¬ n = m := fun h => hm h.symm
          have hg2 : (if m = n then grau n - 1 else grau m) = grau m := if_neg hm
          have hc : (n :: rest).count m = rest.count m := by
            simp [List.count_cons, hnm]
          rw [hg2, hc, List.mem_cons]
          constructor
          · rintro ⟨hmem, hle, hge⟩
            exact ⟨Or.inr hmem, hle, hge⟩
          · rintro ⟨hc2 | hmem, hle, hge⟩
            · exact absurd hc2 hm
            · exact ⟨hmem, hle, hge⟩

theorem processNeighbors_nodup (ns : List String) (grau : String → Int) :
    (processNeighbors grau ns).2.Nodup := by
  induction ns generalizing grau with
  | nil => simp [processNeighbors]
  | cons n rest ih =>
      rw [processNeighbors]
      by_cases h0 : grau n - 1 = 0
      · rw [if_pos h0]
        dsimp only
        rw [List.nodup_cons]
        refine ⟨?_, ih _⟩
        intro hmem
        rw [processNeighbors_mem] at hmem
        obtain ⟨_, hle, _⟩ := hmem
        rw [if_pos rfl] at hle
        omega
      · rw [if_neg h0]
        exact ih _

theorem sum_map_update (names : List String) (hnd : names.Nodup) (n : String)
    (hn : n ∈ names) (f : String → Nat) (v : Nat) :
    (names.map (fun x => if x = n then v else f x)).sum + f n = (names.map f).sum + v := by
  induction names with
  | nil => simp at hn
  | cons a rest ih =>
      simp only [List.nodup_cons] at hnd
      rcases List.mem_cons.1 hn with h | h
      · subst h
        have hrest : rest.map (fun x => if x = n then v else f x) = rest.map f := by
          apply List.map_congr_left
          intro x hx
          have hne : ¬ x = n := fun hc => hnd.1 (hc ▸ hx)
          simp [hne]
        simp only [List.map_cons, List.sum_cons, eq_self_iff_true, if_true, hrest]
        omega
      · have ha : ¬ a = n := fun hc => hnd.1 (by rw [hc]; exact h)
        simp only [List.map_cons, List.sum_cons, if_neg ha]
        have := ih hnd.2 h
        omega

theorem processNeighbors_sum (names : List String) (hnd : names.Nodup)
    (ns : List String) (grau : String → Int) (hns : ∀ m ∈ ns, m ∈ names) :
    (names.map (fun x => ((processNeighbors grau ns).1 x).toNat)).sum +
      (processNeighbors grau ns).2.length ≤
    (names.map (fun x => (grau x).toNat)).sum := by
  induction ns generalizing grau with
  | nil => simp [processNeighbors]
  | cons n rest ih =>
      have hg2 := ih (fun x => if x = n then grau n - 1 else grau x)
        (fun m hm => hns m (List.mem_cons_of_mem n hm))
      rw [processNeighbors_cons_fst]
      rw [show (processNeighbors grau (n :: rest)).2 =
          (if grau n - 1 = 0 then
            n :: (processNeighbors (fun x => if x = n then grau n - 1 else grau x) rest).2
          else (processNeighbors (fun x => if x = n then grau n - 1 else grau x) rest).2)
        from by
          rw [processNeighbors]
          by_cases h0 : grau n - 1 = 0
          · rw [if_pos h0, if_pos h0]
          · rw [if_neg h0, if_neg h0]]
      by_cases h0 : grau n - 1 = 0
      · rw [if_pos h0, List.length_cons]
        have hnn : n ∈ names := hns n (List.mem_cons_self n rest)
        have hg2b : (names.map (fun x =>
            ((processNeighbors (fun x => if x = n then grau n - 1 else grau x) rest).1
              x).toNat)).sum +
            (processNeighbors (fun x => if x = n then grau n - 1 else grau x) rest).2.length ≤
            (names.map (fun x => if x = n then 0 else (grau x).toNat)).sum := by
          refine le_trans hg2 (le_of_eq ?_)
          refine congrArg List.sum ?_
          apply List.map_congr_left
          intro x hx
          dsimp only
          by_cases hxn : x = n
          · rw [if_pos hxn, if_pos hxn]
            omega
          · rw [if_neg hxn, if_neg hxn]
        have hupdate : (names.map (fun x => if x = n then 0 else (grau x).toNat)).sum +
            (grau n).toNat = (names.map (fun x => (grau x).toNat)).sum + 0 := by
          have := sum_map_update names hnd n hnn (fun x => (grau x).toNat) 0
          simpa using this
        have hg1 : (grau n).toNat = 1 := by omega
        omega
      · rw [if_neg h0]
        have hpoint : (names.map (fun x =>
            ((fun x => if x = n then grau n - 1 else grau x) x).toNat)).sum ≤
            (names.map (fun x => (grau x).toNat)).sum := by
          apply List.sum_le_sum
          intro x hx
          by_cases hxn : x = n
          · subst hxn
            simp only [if_pos rfl]
            omega
          · simp [hxn]
        omega

/-! ## Lemmas: the queue loop of Kahn's algorithm -/

theorem indexOf_append_left (l l' : List String) (a : String) (h : a ∈ l) :
    (l ++ l').indexOf a = l.indexOf a := by
  induction l with
  | nil => simp at h
  | cons b rest ih =>
      by_cases hb : b = a
      · subst hb
        simp [List.indexOf_cons_self]
      · have hb2 : (b == a) = false := by simpa using hb
        rcases List.mem_cons.1 h with hc | hc
        · exact absurd hc.symm hb
        · simp only [List.cons_append, List.indexOf_cons, hb2, cond_false]
          rw [ih hc]

theorem indexOf_append_self (l : List String) (a : String) (h : a ∉ l) :
    (l ++ [a]).indexOf a = l.length := by
  induction l with
  | nil => simp [List.indexOf_cons_self]
  | cons b rest ih =>
      have hb : ¬ b = a := fun hc => h (by rw [hc]; exact List.mem_cons_self a rest)
      have hb2 : (b == a) = false := by simpa using hb
      simp only [List.cons_append, List.indexOf_cons, hb2, cond_false, List.length_cons]
      rw [ih (fun hc => h (List.mem_cons_of_mem b hc))]

theorem processedInto_cons (e : String × String) (rest : List (String × String))
    (S : List String) (m : String) :
    processedInto (e :: rest) S m =
      processedInto rest S m + (if decide (e.1 ∈ S) && (e.2 == m) then 1 else 0) := by
  rw [processedInto, processedInto, List.filter_cons]
  by_cases h : (decide (e.1 ∈ S) && (e.2 == m)) = true
  · simp [h]
  · simp only [Bool.not_eq_true] at h
    simp [h]

theorem inDegree_cons (e : String × String) (rest : List (String × String)) (m : String) :
    inDegree (e :: rest) m = inDegree rest m + (if (e.2 == m) then 1 else 0) := by
  rw [inDegree, inDegree, List.filter_cons]
  by_cases h : (e.2 == m) = true
  · simp [h]
  · simp only [Bool.not_eq_true] at h
    simp [h]

theorem processedInto_lt_of_missing (edges : List (String × String)) (S : List String)
    (m : String) (e : String × String) (he : e ∈ edges) (hm : e.2 = m) (hs : e.1 ∉ S) :
    processedInto edges S m < inDegree edges m := by
  induction edges with
  | nil => simp at he
  | cons e' rest ih =>
      rw [processedInto_cons, inDegree_cons]
      rcases List.mem_cons.1 he with hc | hc
      · subst hc
        have h2 : (e.2 == m) = true := by simpa using hm
        have h1 : (decide (e.1 ∈ S)) = false := by simpa using hs
        have hle := processedInto_le_inDegree rest S m
        simp only [h1, h2, Bool.false_and, Bool.false_eq_true, if_false, if_true]
        omega
      · have := ih hc
        have hd : (if decide (e'.1 ∈ S) && (e'.2 == m) then 1 else 0) ≤
            (if (e'.2 == m) then 1 else 0) := by
          by_cases hb : (e'.2 == m) = true
          · simp only [hb, Bool.and_true, if_true]
            split <;> omega
          · simp only [Bool.not_eq_true] at hb
            simp [hb]
        omega

/-- At a state whose queue has drained, every declared name not yet output is
stuck behind an unprocessed in-edge, and the output is a topological,
duplicate-free list of declared names. -/
theorem kahnTerminal (edges : List (String × String)) (names : List String)
    (grau : String → Int) (sorted : List String)
    (hnd : sorted.Nodup)
    (hmem : ∀ x ∈ sorted, x ∈ names)
    (hgrau : ∀ m, grau m = grau0 edges m - Int.ofNat (processedInto edges sorted m))
    (horder : ∀ e ∈ edges, e.2 ∈ sorted →
      e.1 ∈ sorted ∧ sorted.indexOf e.1 < sorted.indexOf e.2)
    (hzero : ∀ n ∈ names, grau n = 0 → n ∈ sorted) :
    sorted.Nodup ∧ (∀ x ∈ sorted, x ∈ names) ∧
    (∀ e ∈ edges, e.2 ∈ sorted →
      e.1 ∈ sorted ∧ sorted.indexOf e.1 < sorted.indexOf e.2) ∧
    (∀ n ∈ names, n ∉ sorted → ∃ e ∈ edges, e.2 = n ∧ e.1 ∉ sorted) := by
  refine ⟨hnd, hmem, horder, ?_⟩
  intro n hn hnot
  have hgn : grau n ≠ 0 := fun hc => hnot (hzero n hn hc)
  have heq := hgrau n
  rw [grau0_eq_inDegree] at heq
  simp only [intOfNat_eq] at heq
  have hle := processedInto_le_inDegree edges sorted n
  have hlt : processedInto edges sorted n < inDegree edges n := by omega
  exact processedInto_lt edges sorted n hlt

/-- The queue loop preserves the Kahn invariants and, once drained, yields a
duplicate-free topologically ordered list of declared names in which every
missing name is stuck behind a missing predecessor. -/
theorem kahnLoop_spec (edges : List (String × String)) (names : List String)
    (hnames : names.Nodup)
    (hedge : ∀ e ∈ edges, e.1 ∈ names ∧ e.2 ∈ names) :
    ∀ (fuel : Nat) (fila : List String) (grau : String → Int) (sorted : List String),
    (sorted ++ fila).Nodup →
    (∀ x ∈ sorted ++ fila, x ∈ names) →
    (∀ m, grau m = grau0 edges m - Int.ofNat (processedInto edges sorted m)) →
    (∀ x ∈ sorted ++ fila, grau x = 0) →
    (∀ e ∈ edges, e.2 ∈ sorted → e.1 ∈ sorted ∧ sorted.indexOf e.1 < sorted.indexOf e.2) →
    (∀ n ∈ names, grau n = 0 → n ∈ sorted ++ fila) →
    fila.length + (names.map (fun x => (grau x).toNat)).sum ≤ fuel →
    (kahnLoop (adjacencia edges) fuel fila grau sorted).Nodup ∧
    (∀ x ∈ kahnLoop (adjacencia edges) fuel fila grau sorted, x ∈ names) ∧
    (∀ e ∈ edges, e.2 ∈ kahnLoop (adjacencia edges) fuel fila grau sorted →
      e.1 ∈ kahnLoop (adjacencia edges) fuel fila grau sorted ∧
      (kahnLoop (adjacencia edges) fuel fila grau sorted).indexOf e.1 <
        (kahnLoop (adjacencia edges) fuel fila grau sorted).indexOf e.2) ∧
    (∀ n ∈ names, n ∉ kahnLoop (adjacencia edges) fuel fila grau sorted →
      ∃ e ∈ edges, e.2 = n ∧ e.1 ∉ kahnLoop (adjacencia edges) fuel fila grau sorted) := by
  intro fuel
  induction fuel with
  | zero =>
      intro fila grau sorted hnd hmem hgrau hq0 horder hzero hfuel
      have hfila : fila = [] := List.length_eq_zero.1 (by omega)
      subst hfila
      rw [kahnLoop]
      simp only [List.append_nil] at hnd hmem hq0 hzero
      exact kahnTerminal edges names grau sorted hnd hmem hgrau horder hzero
  | succ fuel ih =>
      intro fila grau sorted hnd hmem hgrau hq0 horder hzero hfuel
      cases fila with
      | nil =>
          rw [kahnLoop]
          simp only [List.append_nil] at hnd hmem hq0 hzero
          exact kahnTerminal edges names grau sorted hnd hmem hgrau horder hzero
      | cons current fila2 =>
          rw [kahnLoop]
          have hcurnames : current ∈ names := hmem current (by simp)
          have hnd_split := List.nodup_append.1 hnd
          have hcur_not_sorted : current ∉ sorted :=
            fun hc => hnd_split.2.2 hc (by simp)
          have hgr_cur : grau current = 0 := hq0 current (by simp)
          have hready : ∀ e ∈ edges, e.2 = current → e.1 ∈ sorted := by
            intro e he hm
            by_contra hnotin
            have hlt := processedInto_lt_of_missing edges sorted current e he hm hnotin
            have heq := hgrau current
            rw [grau0_eq_inDegree] at heq
            simp only [intOfNat_eq] at heq
            omega
          have hadj_names : ∀ z ∈ adjacencia edges current, z ∈ names :=
            fun z hz => (hedge _ (mem_adjacencia edges current z hz)).2
          have hzs_names : ∀ z ∈ (processNeighbors grau (adjacencia edges current)).2,
              z ∈ names := by
            intro z hz
            rw [processNeighbors_mem] at hz
            exact hadj_names z hz.1
          have hzs_fresh : ∀ z ∈ (processNeighbors grau (adjacencia edges current)).2,
              z ∉ sorted ++ current :: fila2 := by
            intro z hz hmem2
            rw [processNeighbors_mem] at hz
            have := hq0 z hmem2
            omega
          have hnd2 : ((sorted ++ [current]) ++
              (fila2 ++ (processNeighbors grau (adjacencia edges current)).2)).Nodup := by
            have hrw : (sorted ++ [current]) ++
                (fila2 ++ (processNeighbors grau (adjacencia edges current)).2) =
                (sorted ++ current :: fila2) ++
                  (processNeighbors grau (adjacencia edges current)).2 := by
              simp
            rw [hrw]
            exact List.Nodup.append hnd (processNeighbors_nodup _ _)
              (fun a ha haz => hzs_fresh a haz ha)
          have hmem2 : ∀ x ∈ (sorted ++ [current]) ++
              (fila2 ++ (processNeighbors grau (adjacencia edges current)).2), x ∈ names := by
            intro x hx
            simp only [List.mem_append, List.mem_singleton] at hx
            rcases hx with (hx | hx) | (hx | hx)
            · exact hmem x (by simp [hx])
            · subst hx; exact hcurnames
            · exact hmem x (by simp [hx])
            · exact hzs_names x hx
          have hgrau2 : ∀ m, (processNeighbors grau (adjacencia edges current)).1 m =
              grau0 edges m - Int.ofNat (processedInto edges (sorted ++ [current]) m) := by
            intro m
            rw [processNeighbors_fst, hgrau m,
              processedInto_append edges sorted current m hcur_not_sorted]
            simp only [intOfNat_eq]
            push_cast
            omega
          have hnonneg : ∀ m, 0 ≤ (processNeighbors grau (adjacencia edges current)).1 m := by
            intro m
            rw [hgrau2 m, grau0_eq_inDegree]
            simp only [intOfNat_eq]
            have := processedInto_le_inDegree edges (sorted ++ [current]) m
            omega
          have hq02 : ∀ x ∈ (sorted ++ [current]) ++
              (fila2 ++ (processNeighbors grau (adjacencia edges current)).2),
              (processNeighbors grau (adjacencia edges current)).1 x = 0 := by
            intro x hx
            have hle : (processNeighbors grau (adjacencia edges current)).1 x ≤ 0 := by
              rw [processNeighbors_fst]
              simp only [List.mem_append, List.mem_singleton] at hx
              rcases hx with (hx | hx) | (hx | hx)
              · have := hq0 x (by simp [hx]); omega
              · subst hx; omega
              · have := hq0 x (by simp [hx]); omega
              · rw [processNeighbors_mem] at hx
                have := hx.2.2
                omega
            have := hnonneg x
            omega
          have horder2 : ∀ e ∈ edges, e.2 ∈ sorted ++ [current] →
              e.1 ∈ sorted ++ [current] ∧
              (sorted ++ [current]).indexOf e.1 < (sorted ++ [current]).indexOf e.2 := by
            intro e he h2
            rcases List.mem_append.1 h2 with h2s | h2c
            · obtain ⟨h1s, hidx⟩ := horder e he h2s
              refine ⟨List.mem_append.2 (Or.inl h1s), ?_⟩
              rw [indexOf_append_left _ _ _ h1s, indexOf_append_left _ _ _ h2s]
              exact hidx
            · have h2c2 : e.2 = current := by simpa using h2c
              have h1s : e.1 ∈ sorted := hready e he h2c2
              refine ⟨List.mem_append.2 (Or.inl h1s), ?_⟩
              rw [indexOf_append_left _ _ _ h1s, h2c2,
                indexOf_append_self sorted current hcur_not_sorted]
              exact List.indexOf_lt_length.2 h1s
          have hzero2 : ∀ n ∈ names,
              (processNeighbors grau (adjacencia edges current)).1 n = 0 →
              n ∈ (sorted ++ [current]) ++
                (fila2 ++ (processNeighbors grau (adjacencia edges current)).2) := by
            intro n hn h0
            rw [processNeighbors_fst] at h0
            by_cases hcnt : (adjacencia edges current).count n = 0
            · have hg : grau n = 0 := by
                rw [hcnt] at h0
                simpa using h0
              have := hzero n hn hg
              simp only [List.mem_append, List.mem_cons] at this ⊢
              tauto
            · have hpos : 0 < (adjacencia edges current).count n := Nat.pos_of_ne_zero hcnt
              have hmemz : n ∈ (processNeighbors grau (adjacencia edges current)).2 := by
                rw [processNeighbors_mem]
                exact ⟨List.count_pos_iff.1 hpos, by omega, by omega⟩
              simp [hmemz]
          have hfuel2 : (fila2 ++ (processNeighbors grau (adjacencia edges current)).2).length +
              (names.map (fun x =>
                ((processNeighbors grau (adjacencia edges current)).1 x).toNat)).sum ≤ fuel := by
            have hsum := processNeighbors_sum names hnames (adjacencia edges current)
              grau hadj_names
            simp only [List.length_append, List.length_cons] at hfuel ⊢
            omega
          exact ih (fila2 ++ (processNeighbors grau (adjacencia edges current)).2)
            (processNeighbors grau (adjacencia edges current)).1 (sorted ++ [current])
            hnd2 hmem2 hgrau2 hq02 horder2 hzero2 hfuel2

/-! ## Lemmas: the collection loop and the edge construction -/

theorem collectTypesAux_names_nodup (l : List Value) :
    ∀ (defs : List (String × Value)) (names : List String), names.Nodup →
    (collectTypesAux l defs names).2.Nodup := by
  induction l with
  | nil => intro defs names h; exact h
  | cons t rest ih =>
      intro defs names h
      rw [collectTypesAux]
      cases ht : typeName t with
      | none => exact ih _ _ h
      | some name =>
          apply ih
          by_cases hc : name ∈ names
          · simpa [hc] using h
          · have hc2 : names.contains name = false := by simpa using hc
            simp only [hc2, Bool.false_eq_true, if_false]
            refine List.Nodup.append h (List.nodup_singleton _) ?_
            intro a ha hb
            rw [List.mem_singleton] at hb
            subst hb
            exact hc ha

theorem collectTypesAux_names_mono (l : List Value) :
    ∀ (defs : List (String × Value)) (names : List String) (x : String), x ∈ names →
    x ∈ (collectTypesAux l defs names).2 := by
  induction l with
  | nil => intro defs names x h; exact h
  | cons t rest ih =>
      intro defs names x h
      rw [collectTypesAux]
      cases ht : typeName t with
      | none => exact ih _ _ _ h
      | some name =>
          apply ih
          by_cases hc : name ∈ names
          · simpa [hc] using h
          · have hc2 : names.contains name = false := by simpa using hc
            simp only [hc2, Bool.false_eq_true, if_false]
            exact List.mem_append.2 (Or.inl h)

theorem collectTypesAux_length (l : List Value) :
    ∀ (defs : List (String × Value)) (names : List String),
    (∀ t ∈ l, (typeName t).isSome) → (l.map typeName).Nodup →
    (∀ t ∈ l, ∀ n, typeName t = some n → n ∉ names) →
    (collectTypesAux l defs names).2.length = names.length + l.length := by
  induction l with
  | nil => intro defs names _ _ _; simp [collectTypesAux]
  | cons t rest ih =>
      intro defs names hsome hnd hdisj
      rw [collectTypesAux]
      obtain ⟨n, hn⟩ := Option.isSome_iff_exists.1 (hsome t (List.mem_cons_self t rest))
      rw [hn]
      have hnotin : n ∉ names := hdisj t (List.mem_cons_self t rest) n hn
      have hcontains : names.contains n = false := by simpa using hnotin
      simp only [hcontains, Bool.false_eq_true, if_false]
      simp only [List.map_cons, List.nodup_cons] at hnd
      have hrest := ih (mapSet defs n t) (names ++ [n])
        (fun t' ht' => hsome t' (List.mem_cons_of_mem t ht'))
        hnd.2
        (by
          intro t' ht' n' hn' hmem
          rcases List.mem_append.1 hmem with hmem | hmem
          · exact hdisj t' (List.mem_cons_of_mem t ht') n' hn' hmem
          · rw [List.mem_singleton] at hmem
            subst hmem
            exact hnd.1 (List.mem_map.2 ⟨t', ht', by rw [hn', hn]⟩))
      rw [hrest]
      simp only [List.length_append, List.length_singleton, List.length_cons,
        List.length_nil]
      omega

theorem declaredNames_nodup (rawTypes : List Value) : (declaredNames rawTypes).Nodup :=
  collectTypesAux_names_nodup rawTypes [] [] List.nodup_nil

theorem declaredNames_length (rawTypes : List Value) (h : WellFormedTypes rawTypes) :
    (declaredNames rawTypes).length = rawTypes.length := by
  have := collectTypesAux_length rawTypes [] [] h.1 h.2 (by simp)
  simpa using this

theorem fieldEdgeDeps_mem (names : List String) (f : Value) :
    ∀ d ∈ fieldEdgeDeps names f, d ∈ names := by
  intro d hd
  cases f with
  | obj field =>
      rw [fieldEdgeDeps] at hd
      rcases List.mem_append.1 hd with h1 | h2
      · rcases hof : mapGet field "ofType" with _ | v
        · rw [hof] at h1; simp at h1
        · rw [hof] at h1
          cases v with
          | str dep =>
              by_cases hc : names.contains dep
              · simp only [hc, if_true] at h1
                rw [List.mem_singleton] at h1
                subst h1
                simpa using hc
              · simp only [hc, Bool.false_eq_true, if_false] at h1
                simp at h1
          | null => simp at h1
          | bool b => simp at h1
          | num n => simp at h1
          | arr xs => simp at h1
          | obj fs => simp at h1
      · rcases hargs : mapGet field "args" with _ | v
        · rw [hargs] at h2; simp at h2
        · rw [hargs] at h2
          cases v with
          | arr args =>
              rw [List.mem_flatten] at h2
              obtain ⟨l, hl, hdl⟩ := h2
              rw [List.mem_map] at hl
              obtain ⟨a, ha, rfl⟩ := hl
              cases a with
              | obj arg =>
                  have hdl2 : d ∈ (match mapGet arg "ofType" with
                    | some (.str dependencyName) =>
                        if names.contains dependencyName then [dependencyName] else []
                    | _ => ([] : List String)) := hdl
                  clear hdl
                  rename' hdl2 => hdl
                  rcases hof : mapGet arg "ofType" with _ | v2
                  · rw [hof] at hdl; simp at hdl
                  · rw [hof] at hdl
                    cases v2 with
                    | str dep =>
                        by_cases hc : names.contains dep
                        · simp only [hc, if_true] at hdl
                          rw [List.mem_singleton] at hdl
                          subst hdl
                          simpa using hc
                        · simp only [hc, Bool.false_eq_true, if_false] at hdl
                          simp at hdl
                    | null => simp at hdl
                    | bool b => simp at hdl
                    | num n => simp at hdl
                    | arr xs => simp at hdl
                    | obj fs => simp at hdl
              | null => simp at hdl
              | bool b => simp at hdl
              | num n => simp at hdl
              | str sv => simp at hdl
              | arr xs => simp at hdl
          | null => simp at h2
          | bool b => simp at h2
          | num n => simp at h2
          | str sv => simp at h2
          | obj fs => simp at h2
  | null => exact absurd (show d ∈ ([] : List String) from hd) (by simp)
  | bool b => exact absurd (show d ∈ ([] : List String) from hd) (by simp)
  | num n => exact absurd (show d ∈ ([] : List String) from hd) (by simp)
  | str sv => exact absurd (show d ∈ ([] : List String) from hd) (by simp)
  | arr xs => exact absurd (show d ∈ ([] : List String) from hd) (by simp)

theorem typeEdgeDeps_mem (names : List String) (defs : List (String × Value))
    (name : String) : ∀ d ∈ typeEdgeDeps names defs name, d ∈ names := by
  intro d hd
  rw [typeEdgeDeps] at hd
  rcases hdef : mapGet defs name with _ | v
  · rw [hdef] at hd; simp at hd
  · rw [hdef] at hd
    cases v with
    | obj typeDef =>
        have hd2 : d ∈ (match mapGet typeDef "fields" with
          | some (.arr fields) => (List.map (fieldEdgeDeps names) fields).flatten
          | _ => ([] : List String)) := hd
        clear hd
        rename' hd2 => hd
        rcases hf : mapGet typeDef "fields" with _ | fv
        · rw [hf] at hd; simp at hd
        · rw [hf] at hd
          cases fv with
          | arr fields =>
              rw [List.mem_flatten] at hd
              obtain ⟨l, hl, hdl⟩ := hd
              rw [List.mem_map] at hl
              obtain ⟨fld, hfld, rfl⟩ := hl
              exact fieldEdgeDeps_mem names fld d hdl
          | null => simp at hd
          | bool b => simp at hd
          | num n => simp at hd
          | str sv => simp at hd
          | obj fs => simp at hd
    | null => simp at hd
    | bool b => simp at hd
    | num n => simp at hd
    | str sv => simp at hd
    | arr xs => simp at hd

theorem kahnEdges_mem (names : List String) (defs : List (String × Value)) :
    ∀ e ∈ kahnEdges names defs, e.1 ∈ names ∧ e.2 ∈ names := by
  intro e he
  rw [kahnEdges] at he
  rw [List.mem_flatten] at he
  obtain ⟨l, hl, hel⟩ := he
  rw [List.mem_map] at hl
  obtain ⟨name, hname, rfl⟩ := hl
  rw [List.mem_map] at hel
  obtain ⟨dep, hdep, rfl⟩ := hel
  exact ⟨typeEdgeDeps_mem names defs name dep hdep, hname⟩

theorem typeEdges_mem (rawTypes : List Value) :
    ∀ e ∈ typeEdges rawTypes, e.1 ∈ declaredNames rawTypes ∧ e.2 ∈ declaredNames rawTypes :=
  kahnEdges_mem (declaredNames rawTypes) (typeDefs rawTypes)

/-! ## Lemmas: the full Kahn run -/

theorem kahnNames_spec (edges : List (String × String)) (names : List String)
    (hnames : names.Nodup)
    (hedge : ∀ e ∈ edges, e.1 ∈ names ∧ e.2 ∈ names) :
    (kahnNames names edges).Nodup ∧
    (∀ x ∈ kahnNames names edges, x ∈ names) ∧
    (∀ e ∈ edges, e.2 ∈ kahnNames names edges →
      e.1 ∈ kahnNames names edges ∧
      (kahnNames names edges).indexOf e.1 < (kahnNames names edges).indexOf e.2) ∧
    (∀ n ∈ names, n ∉ kahnNames names edges →
      ∃ e ∈ edges, e.2 = n ∧ e.1 ∉ kahnNames names edges) := by
  have h := kahnLoop_spec edges names hnames hedge
    ((names.filter (fun n => grau0 edges n == 0)).length + totalGrau names edges)
    (names.filter (fun n => grau0 edges n == 0)) (grau0 edges) []
    (by simpa using hnames.filter _)
    (by
      intro x hx
      simp only [List.nil_append] at hx
      exact (List.mem_filter.1 hx).1)
    (by intro m; simp [processedInto_nil])
    (by
      intro x hx
      simp only [List.nil_append] at hx
      have := (List.mem_filter.1 hx).2
      simpa using this)
    (by intro e he h2; simp at h2)
    (by
      intro n hn h0
      simp only [List.nil_append]
      exact List.mem_filter.2 ⟨hn, by simpa using h0⟩)
    (le_refl _)
  rw [kahnNames]
  exact h

theorem exists_rank_min (l : List String) (f : String → Nat) (h : l ≠ []) :
    ∃ a ∈ l, ∀ b ∈ l, f a ≤ f b := by
  induction l with
  | nil => exact absurd rfl h
  | cons x rest ih =>
      cases rest with
      | nil =>
          refine ⟨x, by simp, ?_⟩
          intro b hb
          rw [List.mem_singleton] at hb
          subst hb
          exact le_refl _
      | cons y rest2 =>
          obtain ⟨a, ha, hmin⟩ := ih (by simp)
          by_cases hxa : f x ≤ f a
          · refine ⟨x, by simp, ?_⟩
            intro b hb
            rcases List.mem_cons.1 hb with hb | hb
            · subst hb; exact le_refl _
            · exact le_trans hxa (hmin b hb)
          · refine ⟨a, List.mem_cons_of_mem x ha, ?_⟩
            intro b hb
            rcases List.mem_cons.1 hb with hb | hb
            · subst hb; omega
            · exact hmin b hb

theorem edgeChain_rank (edges : List (String × String)) (rank : String → Nat)
    (hrank : ∀ e ∈ edges, rank e.1 < rank e.2) :
    ∀ a b, EdgeChain edges a b → rank a < rank b := by
  intro a b hc
  induction hc with
  | single h => exact hrank _ h
  | cons h _ ih => exact lt_trans (hrank _ h) ih

theorem kahnNames_complete (edges : List (String × String)) (names : List String)
    (hnames : names.Nodup)
    (hedge : ∀ e ∈ edges, e.1 ∈ names ∧ e.2 ∈ names)
    (hacyc : AcyclicEdges edges) :
    ∀ n ∈ names, n ∈ kahnNames names edges := by
  obtain ⟨rank, hrank⟩ := hacyc
  by_contra hnot
  push_neg at hnot
  obtain ⟨n0, hn0, hn0not⟩ := hnot
  have hspec := kahnNames_spec edges names hnames hedge
  have hn0R : n0 ∈ names.filter (fun n => decide (n ∉ kahnNames names edges)) :=
    List.mem_filter.2 ⟨hn0, by simpa using hn0not⟩
  obtain ⟨r, hrR, hrmin⟩ := exists_rank_min
    (names.filter (fun n => decide (n ∉ kahnNames names edges))) rank
    (List.ne_nil_of_mem hn0R)
  have hrnames : r ∈ names := (List.mem_filter.1 hrR).1
  have hrout : r ∉ kahnNames names edges := by
    have := (List.mem_filter.1 hrR).2
    simpa using this
  obtain ⟨e, he, hem, hsrc⟩ := hspec.2.2.2 r hrnames hrout
  have hsrcR : e.1 ∈ names.filter (fun n => decide (n ∉ kahnNames names edges)) :=
    List.mem_filter.2 ⟨(hedge e he).1, by simpa using hsrc⟩
  have h1 := hrank e he
  have h2 := hrmin e.1 hsrcR
  rw [hem] at h1
  omega

/-! ## Claim theorems -/

/-- C4: `merge(dest, src)` proceeds key-wise over `src` — at every key, a
shared `Mapping`/`Mapping` pair merges recursively, a shared
`Sequence`/`Sequence` pair concatenates `dest`'s elements before `src`'s, any
other shared pair is overwritten by `src`'s value, keys only in `src` are
added, and keys only in `dest` are kept (all captured by the one-key contract
`mergeSpec`). -/
theorem C4_merge_keywise (dest src : List (String × Value)) (key : String)
    (hnd : (src.map Prod.fst).Nodup) :
    mapGet (mergeMaps dest src) key = mergeSpec (mapGet dest key) (mapGet src key) :=
  mapGet_mergeMaps dest src key hnd

theorem C4_merge_keywise_witness :
    mapGet (mergeMaps [("a", .obj [("x", .num 1)]), ("s", .arr [.num 1])]
        [("a", .obj [("y", .num 2)]), ("t", .num 3)]) "a" =
      mergeSpec (mapGet [("a", .obj [("x", .num 1)]), ("s", .arr [.num 1])] "a")
        (mapGet [("a", .obj [("y", .num 2)]), ("t", .num 3)] "a") :=
  C4_merge_keywise [("a", .obj [("x", .num 1)]), ("s", .arr [.num 1])]
    [("a", .obj [("y", .num 2)]), ("t", .num 3)] "a" (by simp)

/-- C7: a non-root level with more than one child is emitted as a `Sequence`
exactly when every child key has slash count zero (equivalently: all counts
equal and that count is zero), and as a nested `Mapping` otherwise; a level
with at most one child is never sent to the array branch by this policy
(`shouldBeArray` is `false` there). -/
theorem C7_array_object_policy (result : List (String × Value)) (levelKey : String)
    (levelParams : List (String × Param)) :
    (1 < levelParams.length →
      processNestedLevel result levelKey levelParams =
        mapSet result levelKey
          (if levelParams.all (fun c => slashCount c.1 == 0) then
            .arr (buildArrayFromMap levelParams)
          else .obj (buildNestedStructure levelParams))) ∧
    (levelParams.length ≤ 1 → shouldBeArray levelParams = false) := by
  constructor
  · intro h
    have hne : ¬ levelParams.length = 1 := by omega
    rw [processNestedLevel.eq_def]
    simp only [hne, if_false]
    rw [shouldBeArray_eq_all_zero levelParams h]
    by_cases hall : levelParams.all (fun c => slashCount c.1 == 0) <;> simp [hall]
  · intro h
    rw [shouldBeArray.eq_def]
    simp [h]

theorem C7_array_object_policy_witness :
    (processNestedLevel [] "k" [("a", ⟨"n", "1"⟩), ("b", ⟨"m", "2"⟩)] =
      mapSet [] "k"
        (if [(("a" : String), (⟨"n", "1"⟩ : Param)), ("b", ⟨"m", "2"⟩)].all
            (fun c => slashCount c.1 == 0) then
          .arr (buildArrayFromMap [("a", ⟨"n", "1"⟩), ("b", ⟨"m", "2"⟩)])
        else .obj (buildNestedStructure [("a", ⟨"n", "1"⟩), ("b", ⟨"m", "2"⟩)]))) ∧
    shouldBeArray [(("x/y" : String), (⟨"n", "1"⟩ : Param))] = false :=
  ⟨(C7_array_object_policy [] "k" [("a", ⟨"n", "1"⟩), ("b", ⟨"m", "2"⟩)]).1 (by simp),
   (C7_array_object_policy [] "k" [("x/y", ⟨"n", "1"⟩)]).2 (by simp)⟩

/-- C8: JSON-mode value parsing is total and never fails the build — when the
value string parses as JSON the parsed value is used, otherwise the string
itself is the scalar, and the whole JSON-mode build (without the optional
dependency sort) always returns a document, never an error. -/
theorem C8_json_parse_total (s : String) (fetch : String → List Param)
    (tryMap : String → Option (List (String × Value)))
    (tryList : String → Option (List Value)) (opts : BuildOptions)
    (hy : opts.yamlRules = false) (hs : opts.sortByDependencies = false) :
    (∀ v, jsonUnmarshal s = some v → parseParameterValue s = v) ∧
    (jsonUnmarshal s = none → parseParameterValue s = .str s) ∧
    BuildConfigFromPrefixes fetch tryMap tryList opts = .ok (jsonAccumulate fetch opts) := by
  refine ⟨?_, ?_, ?_⟩
  · intro v hv
    rw [parseParameterValue, hv]
  · intro hv
    rw [parseParameterValue, hv]
  · rw [BuildConfigFromPrefixes]
    simp [hy, hs]

theorem C8_json_parse_total_witness :
    ((∀ v, jsonUnmarshal "1" = some v → parseParameterValue "1" = v) ∧
      (jsonUnmarshal "1" = none → parseParameterValue "1" = .str "1") ∧
      BuildConfigFromPrefixes (fun _ => [⟨"/p/a", "x"⟩]) (fun _ => none) (fun _ => none)
          ⟨["/p"], true, true, false, false⟩ =
        .ok (jsonAccumulate (fun _ => [⟨"/p/a", "x"⟩]) ⟨["/p"], true, true, false, false⟩)) ∧
    parseParameterValue "1" = .num 1 ∧ parseParameterValue "x" = .str "x" :=
  ⟨C8_json_parse_total "1" (fun _ => [⟨"/p/a", "x"⟩]) (fun _ => none) (fun _ => none)
      ⟨["/p"], true, true, false, false⟩ rfl rfl, rfl, rfl⟩

/-- C3 counterexample: the dependency sort does not keep other top-level keys
— on the input holding `types`, `query` and a third key `extra`, the sort
succeeds but the result no longer contains `extra` (the Go code deletes every
key and reinserts only `types` and `query`). -/
theorem C3_counterexample :
    sortTypesByDependency
        [("types", .arr [.obj [("name", .str "A")]]), ("query", .str "Q"), ("extra", .num 5)] =
      .ok [("types", .arr [.obj [("name", .str "A")]]), ("query", .str "Q")] ∧
    mapGet [(("types" : String), Value.arr [.obj [("name", .str "A")]]),
        ("query", .str "Q"), ("extra", .num 5)] "extra" = some (.num 5) ∧
    mapGet [(("types" : String), Value.arr [.obj [("name", .str "A")]]),
        ("query", .str "Q")] "extra" = none :=
  ⟨rfl, rfl, rfl⟩

/-- C3 (amended): on every successful run, the top-level mapping is rebuilt to
hold exactly the key `types` (bound to the sorted sequence) and the key
`query` (retained unchanged); every other top-level key is dropped. -/
theorem C3_sort_rebuilds_map (schema : List (String × Value)) (rawTypes : List Value)
    (query : Value) (result : List (String × Value))
    (ht : mapGet schema "types" = some (.arr rawTypes))
    (hq : mapGet schema "query" = some query)
    (hok : sortTypesByDependency schema = .ok result) :
    result = [("types", .arr (sortedTypesOf rawTypes)), ("query", query)] := by
  rw [sortTypesByDependency, ht, hq] at hok
  by_cases hlen : (sortedTypesOf rawTypes).length ≠ rawTypes.length
  · simp [hlen] at hok
  · simp only [hlen, if_false, Except.ok.injEq] at hok
    exact hok.symm

theorem C3_sort_rebuilds_map_witness :
    ([("types", Value.arr [.obj [("name", .str "A")]]), ("query", Value.str "Q")] :
        List (String × Value)) =
      [("types", .arr (sortedTypesOf [.obj [("name", .str "A")]])), ("query", .str "Q")] :=
  C3_sort_rebuilds_map
    [("types", .arr [.obj [("name", .str "A")]]), ("query", .str "Q"), ("extra", .num 5)]
    [.obj [("name", .str "A")]] (.str "Q")
    [("types", .arr [.obj [("name", .str "A")]]), ("query", .str "Q")] rfl rfl rfl

/-- C5 counterexample: for parameters `/p/a = "1"` and `/p/b = "2"` with
prefix `/p` and stripPrefix, the JSON-mode build yields the document
`{a: 1, b: 2}` — there is no `items` key at all, so the claimed root
`{items: [1, 2]}` is wrong. -/
theorem C5_counterexample :
    BuildConfigFromPrefixes (fun _ => [⟨"/p/a", "1"⟩, ⟨"/p/b", "2"⟩])
        (fun _ => none) (fun _ => none) ⟨["/p"], true, true, false, false⟩ =
      .ok [("a", .num 1), ("b", .num 2)] ∧
    mapGet [(("a" : String), Value.num 1), ("b", .num 2)] "items" = none := by
  refine ⟨?_, rfl⟩
  have hb : buildStructure [⟨"/p/a", "1"⟩, ⟨"/p/b", "2"⟩] "/p" true false =
      [("a", .num 1), ("b", .num 2)] := rfl
  simp [BuildConfigFromPrefixes, jsonAccumulate, hb, mergeMaps, mergeOne.eq_def, mapGet, mapSet]

/-- C5 (amended): for parameters `/p/a = "1"` and `/p/b = "2"` with prefix
`/p` and stripPrefix, the JSON-mode build produces a root mapping binding each
parameter's own segment key to its value parsed as a JSON number: `a` to `1`
and `b` to `2` (the `items` wrapper arises only for several entries whose
whole relative path is empty, not for first-level segments). -/
theorem C5_per_segment_keys :
    BuildConfigFromPrefixes (fun _ => [⟨"/p/a", "1"⟩, ⟨"/p/b", "2"⟩])
        (fun _ => none) (fun _ => none) ⟨["/p"], true, true, false, false⟩ =
      .ok [("a", .num 1), ("b", .num 2)] ∧
    mapGet [(("a" : String), Value.num 1), ("b", .num 2)] "a" = some (.num 1) ∧
    mapGet [(("a" : String), Value.num 1), ("b", .num 2)] "b" = some (.num 2) := by
  refine ⟨?_, rfl, rfl⟩
  have hb : buildStructure [⟨"/p/a", "1"⟩, ⟨"/p/b", "2"⟩] "/p" true false =
      [("a", .num 1), ("b", .num 2)] := rfl
  simp [BuildConfigFromPrefixes, jsonAccumulate, hb, mergeMaps, mergeOne.eq_def, mapGet, mapSet]

/-- C6 counterexample: a parameter set whose root level holds exactly one
entry (from the empty relative path of `/p`, keyed by its last segment `p`)
does not always map that segment to the parsed value — a second parameter
`/p/p/x` creates a nested level under the same key `p`, whose mapping
overwrites the root entry's scalar in the assembled tree. -/
theorem C6_counterexample :
    mapGet (organizeParametersByLevel [⟨"/p", "1"⟩, ⟨"/p/p/x", "2"⟩] "/p" true) "." =
      some [("p", ⟨"/p", "1"⟩)] ∧
    extractRelativePath "/p" "/p" true = "" ∧
    getLastPathSegment "/p" = "p" ∧
    mapGet (buildStructure [⟨"/p", "1"⟩, ⟨"/p/p/x", "2"⟩] "/p" true false) "p" ≠
      some (parseParameterValue "1") := by
  refine ⟨rfl, rfl, rfl, ?_⟩
  intro h
  rw [show mapGet (buildStructure [⟨"/p", "1"⟩, ⟨"/p/p/x", "2"⟩] "/p" true false) "p" =
    some (.obj [("x", .num 2)]) from rfl] at h
  rw [show parseParameterValue "1" = .num 1 from rfl] at h
  simp at h

/-- C6 (amended): for every parameter set whose sentinel root level holds
exactly one entry, stemming from an empty relative path, and such that no
other level key equals that entry's key, the assembled tree maps the entry's
key — which is its parameter's last path segment — directly to the parsed
value, with no `items` wrapper. -/
theorem C6_single_root_entry (params : List Param) (basePath : String)
    (stripPfx sortFlag : Bool) (seg : String) (p : Param)
    (h1 : mapGet (organizeParametersByLevel params basePath stripPfx) "." = some [(seg, p)])
    (hroot : extractRelativePath p.name basePath stripPfx = "")
    (h2 : ∀ lk ∈ (organizeParametersByLevel params basePath stripPfx).map Prod.fst,
      lk ≠ "." → lk ≠ seg) :
    seg = getLastPathSegment p.name ∧
    mapGet (buildStructure params basePath stripPfx sortFlag) seg =
      some (parseParameterValue p.value) := by
  have hseg : seg = getLastPathSegment p.name :=
    organize_rootKeyed params basePath stripPfx [(seg, p)] h1 seg p
      (List.mem_singleton.2 rfl) hroot
  refine ⟨hseg, ?_⟩
  have hne : params ≠ [] := by
    intro hnil
    rw [hnil] at h1
    simp [organizeParametersByLevel, mapGet] at h1
  have hlen : ¬ params.length = 0 := fun hc => hne (List.length_eq_zero.1 hc)
  rw [buildStructure, if_neg hlen]
  obtain ⟨L1, L2, heq, hL1, hL2⟩ :=
    mapGet_eq_some_split (organizeParametersByLevel params basePath stripPfx) "."
      [(seg, p)] (organize_keysNodup params basePath stripPfx) h1
  rw [buildGenericStructure, heq, List.foldl_append, List.foldl_cons]
  have hroot_step :
      genStep (L1.foldl genStep []) (".", [(seg, p)]) =
        mapSet (L1.foldl genStep []) seg (parseParameterValue p.value) := rfl
  rw [hroot_step]
  have hkeysL2 : ∀ l ∈ L2, l.1 ≠ "." ∧ l.1 ≠ seg := by
    intro l hl
    have hdot : l.1 ≠ "." := by
      intro hc
      exact hL2 (hc ▸ (List.mem_map_of_mem Prod.fst hl))
    refine ⟨hdot, ?_⟩
    apply h2 l.1 _ hdot
    rw [heq]
    simp only [List.map_append, List.map_cons]
    exact List.mem_append.2 (Or.inr (List.mem_cons_of_mem _ (List.mem_map_of_mem Prod.fst hl)))
  rw [foldl_genStep_mapGet_ne L2 _ seg hkeysL2]
  exact mapGet_mapSet_self _ seg _

theorem C6_single_root_entry_witness :
    ("p" : String) = getLastPathSegment ("/p" : String) ∧
    mapGet (buildStructure [⟨"/p", "7"⟩] "/p" true false) "p" =
      some (parseParameterValue "7") :=
  C6_single_root_entry [⟨"/p", "7"⟩] "/p" true false "p" ⟨"/p", "7"⟩ rfl rfl
    (by
      have horg : organizeParametersByLevel [⟨"/p", "7"⟩] "/p" true =
          [(".", [("p", ⟨"/p", "7"⟩)])] := rfl
      rw [horg]
      intro lk hlk
      simp only [List.map_cons, List.map_nil, List.mem_singleton] at hlk
      subst hlk
      intro hc
      exact absurd rfl hc)

/-- C9: in YAML-rules mode, two individually parsed rule parameters (values
parsing as sequences, flat relative paths) with the same rule key make the
build fail with the duplicate-key error, while distinct keys are kept
independently; in general, a successful YAML-rules build implies that any two
such parameters bound distinct rule keys (so duplicates never survive, however
the list is interleaved).  Stated for every mapping/sequence parser pair,
abstracting the `yaml.v3` collaborator. -/
theorem C9_yaml_duplicate_rule_key (tryMap : String → Option (List (String × Value)))
    (tryList : String → Option (List Value)) (basePath : String) (stripPfx : Bool)
    (p1 p2 : Param) (l1 l2 : List Value)
    (h1s : containsSlash (extractRelativePath p1.name basePath stripPfx) = false)
    (h2s : containsSlash (extractRelativePath p2.name basePath stripPfx) = false)
    (h1m : tryMap p1.value = none) (h2m : tryMap p2.value = none)
    (h1l : tryList p1.value = some l1) (h2l : tryList p2.value = some l2) :
    (ruleKey p1 basePath stripPfx = ruleKey p2 basePath stripPfx →
      buildYAMLStructure tryMap tryList [p1, p2] basePath stripPfx =
        .error ("chave de regra duplicada: " ++ ruleKey p2 basePath stripPfx)) ∧
    (ruleKey p1 basePath stripPfx ≠ ruleKey p2 basePath stripPfx →
      buildYAMLStructure tryMap tryList [p1, p2] basePath stripPfx =
        .ok [(ruleKey p1 basePath stripPfx, .arr l1), (ruleKey p2 basePath stripPfx, .arr l2)]) ∧
    (∀ (pre mid post : List Param) (res : List (String × Value)),
      buildYAMLStructure tryMap tryList (pre ++ p1 :: (mid ++ p2 :: post)) basePath stripPfx =
        .ok res →
      ruleKey p1 basePath stripPfx ≠ ruleKey p2 basePath stripPfx) := by
  have hstep1 : ∀ r : List (String × Value), mapGet r (ruleKey p1 basePath stripPfx) = none →
      yamlStep tryMap tryList basePath stripPfx r p1 =
        .ok (mapSet r (ruleKey p1 basePath stripPfx) (.arr l1)) := by
    intro r hr
    rw [yamlStep_listParsed tryMap tryList basePath stripPfx r p1 l1 h1s h1m h1l, hr]
  refine ⟨?_, ?_, ?_⟩
  · intro heq
    rw [buildYAMLStructure, List.foldlM_cons,
      hstep1 [] rfl]
    simp only [Bind.bind, Except.bind, List.foldlM_cons, List.foldlM_nil]
    rw [yamlStep_listParsed tryMap tryList basePath stripPfx _ p2 l2 h2s h2m h2l]
    rw [show mapSet ([] : List (String × Value)) (ruleKey p1 basePath stripPfx) (.arr l1) =
      [(ruleKey p1 basePath stripPfx, .arr l1)] from rfl]
    rw [show mapGet [(ruleKey p1 basePath stripPfx, Value.arr l1)] (ruleKey p2 basePath stripPfx) =
      some (.arr l1) from by simp [mapGet, heq]]
  · intro hne
    rw [buildYAMLStructure, List.foldlM_cons, hstep1 [] rfl]
    simp only [Bind.bind, Except.bind, List.foldlM_cons, List.foldlM_nil]
    rw [yamlStep_listParsed tryMap tryList basePath stripPfx _ p2 l2 h2s h2m h2l]
    rw [show mapSet ([] : List (String × Value)) (ruleKey p1 basePath stripPfx) (.arr l1) =
      [(ruleKey p1 basePath stripPfx, .arr l1)] from rfl]
    rw [show mapGet [(ruleKey p1 basePath stripPfx, Value.arr l1)] (ruleKey p2 basePath stripPfx) =
      none from by simp [mapGet, hne]]
    rw [show mapSet [(ruleKey p1 basePath stripPfx, Value.arr l1)] (ruleKey p2 basePath stripPfx)
        (.arr l2) =
      [(ruleKey p1 basePath stripPfx, .arr l1), (ruleKey p2 basePath stripPfx, .arr l2)] from by
        simp [mapSet, hne]]
    rfl
  · intro pre mid post res hok heq
    rw [buildYAMLStructure, List.foldlM_append] at hok
    simp only [Bind.bind] at hok
    cases hpre : List.foldlM (yamlStep tryMap tryList basePath stripPfx) [] pre with
    | error e => rw [hpre] at hok; simp [Except.bind] at hok
    | ok r1 =>
        rw [hpre] at hok
        simp only [Except.bind, List.foldlM_cons] at hok
        cases hs1 : yamlStep tryMap tryList basePath stripPfx r1 p1 with
        | error e => rw [hs1] at hok; simp [Bind.bind, Except.bind] at hok
        | ok r2 =>
            rw [hs1] at hok
            simp only [Bind.bind, Except.bind, List.foldlM_append] at hok
            have hr2 : (mapGet r2 (ruleKey p1 basePath stripPfx)).isSome := by
              rw [yamlStep_listParsed tryMap tryList basePath stripPfx r1 p1 l1 h1s h1m h1l] at hs1
              cases hg : mapGet r1 (ruleKey p1 basePath stripPfx) with
              | some v => rw [hg] at hs1; simp at hs1
              | none =>
                  rw [hg] at hs1
                  simp only [Except.ok.injEq] at hs1
                  subst hs1
                  simp [mapGet_mapSet_self]
            cases hmid : List.foldlM (yamlStep tryMap tryList basePath stripPfx) r2 mid with
            | error e => rw [hmid] at hok; simp [Except.bind] at hok
            | ok r3 =>
                rw [hmid] at hok
                simp only [Except.bind, List.foldlM_cons] at hok
                have hr3 : (mapGet r3 (ruleKey p2 basePath stripPfx)).isSome := by
                  rw [← heq]
                  exact yamlFold_ok_presence tryMap tryList basePath stripPfx mid r2 r3
                    (ruleKey p1 basePath stripPfx) hmid hr2
                obtain ⟨v, hv⟩ := Option.isSome_iff_exists.1 hr3
                rw [yamlStep_listParsed tryMap tryList basePath stripPfx r3 p2 l2 h2s h2m h2l,
                  hv] at hok
                simp [Bind.bind, Except.bind] at hok

theorem C9_yaml_duplicate_rule_key_witness :
    (ruleKey ⟨"/r/blockedIps", "[1]"⟩ "/r" true = ruleKey ⟨"/r/blockedIps", "[2]"⟩ "/r" true →
      buildYAMLStructure (fun _ => none)
          (fun s => if s = "[1]" then some [.num 1] else if s = "[2]" then some [.num 2] else none)
          [⟨"/r/blockedIps", "[1]"⟩, ⟨"/r/blockedIps", "[2]"⟩] "/r" true =
        .error ("chave de regra duplicada: " ++ ruleKey ⟨"/r/blockedIps", "[2]"⟩ "/r" true)) ∧
    (ruleKey ⟨"/r/blockedIps", "[1]"⟩ "/r" true ≠ ruleKey ⟨"/r/blockedIps2", "[2]"⟩ "/r" true →
      buildYAMLStructure (fun _ => none)
          (fun s => if s = "[1]" then some [.num 1] else if s = "[2]" then some [.num 2] else none)
          [⟨"/r/blockedIps", "[1]"⟩, ⟨"/r/blockedIps2", "[2]"⟩] "/r" true =
        .ok [(ruleKey ⟨"/r/blockedIps", "[1]"⟩ "/r" true, .arr [.num 1]),
             (ruleKey ⟨"/r/blockedIps2", "[2]"⟩ "/r" true, .arr [.num 2])]) ∧
    buildYAMLStructure (fun _ => none)
        (fun s => if s = "[1]" then some [.num 1] else if s = "[2]" then some [.num 2] else none)
        [⟨"/r/blockedIps", "[1]"⟩, ⟨"/r/blockedIps", "[2]"⟩] "/r" true =
      .error ("chave de regra duplicada: " ++ "blockedIps") ∧
    buildYAMLStructure (fun _ => none)
        (fun s => if s = "[1]" then some [.num 1] else if s = "[2]" then some [.num 2] else none)
        [⟨"/r/blockedIps", "[1]"⟩, ⟨"/r/blockedIps2", "[2]"⟩] "/r" true =
      .ok [("blockedIps", .arr [.num 1]), ("blockedIps2", .arr [.num 2])] :=
  ⟨(C9_yaml_duplicate_rule_key (fun _ => none)
      (fun s => if s = "[1]" then some [.num 1] else if s = "[2]" then some [.num 2] else none)
      "/r" true ⟨"/r/blockedIps", "[1]"⟩ ⟨"/r/blockedIps", "[2]"⟩ [.num 1] [.num 2]
      rfl rfl rfl rfl rfl rfl).1,
   (C9_yaml_duplicate_rule_key (fun _ => none)
      (fun s => if s = "[1]" then some [.num 1] else if s = "[2]" then some [.num 2] else none)
      "/r" true ⟨"/r/blockedIps", "[1]"⟩ ⟨"/r/blockedIps2", "[2]"⟩ [.num 1] [.num 2]
      rfl rfl rfl rfl rfl rfl).2.1,
   (C9_yaml_duplicate_rule_key (fun _ => none)
      (fun s => if s = "[1]" then some [.num 1] else if s = "[2]" then some [.num 2] else none)
      "/r" true ⟨"/r/blockedIps", "[1]"⟩ ⟨"/r/blockedIps", "[2]"⟩ [.num 1] [.num 2]
      rfl rfl rfl rfl rfl rfl).1 rfl,
   (C9_yaml_duplicate_rule_key (fun _ => none)
      (fun s => if s = "[1]" then some [.num 1] else if s = "[2]" then some [.num 2] else none)
      "/r" true ⟨"/r/blockedIps", "[1]"⟩ ⟨"/r/blockedIps2", "[2]"⟩ [.num 1] [.num 2]
      rfl rfl rfl rfl rfl rfl).2.1 (by decide)⟩

/-- C10: a top-level mapping that reaches the dependency sort without a
`query` key makes the sort fail — and hence the whole JSON-mode build with
sortByDependencies set — even when `types` is present as a sequence (whatever
its dependency graph). -/
theorem C10_missing_query_fails (schema : List (String × Value)) (rawTypes : List Value)
    (fetch : String → List Param) (tryMap : String → Option (List (String × Value)))
    (tryList : String → Option (List Value)) (opts : BuildOptions)
    (ht : mapGet schema "types" = some (.arr rawTypes))
    (hq : mapGet schema "query" = none)
    (hy : opts.yamlRules = false) (hs : opts.sortByDependencies = true)
    (hacc : jsonAccumulate fetch opts = schema) :
    sortTypesByDependency schema = .error "o campo 'query' nao foi encontrado" ∧
    BuildConfigFromPrefixes fetch tryMap tryList opts =
      .error ("erro ao ordenar tipos por dependencia: " ++ "o campo 'query' nao foi encontrado") := by
  have hsort : sortTypesByDependency schema = .error "o campo 'query' nao foi encontrado" := by
    rw [sortTypesByDependency, ht, hq]
  refine ⟨hsort, ?_⟩
  rw [BuildConfigFromPrefixes]
  simp [hy, hs, hacc, hsort]

theorem C10_missing_query_fails_witness :
    sortTypesByDependency [("types", .arr [.num 1, .num 2])] =
      .error "o campo 'query' nao foi encontrado" ∧
    BuildConfigFromPrefixes (fun _ => [⟨"/t/types/x", "1"⟩, ⟨"/t/types/y", "2"⟩])
        (fun _ => none) (fun _ => none) ⟨["/t"], true, true, false, true⟩ =
      .error ("erro ao ordenar tipos por dependencia: " ++ "o campo 'query' nao foi encontrado") := by
  have hb : buildStructure [⟨"/t/types/x", "1"⟩, ⟨"/t/types/y", "2"⟩] "/t" true true =
      [("types", .arr [.num 1, .num 2])] := rfl
  have hacc : jsonAccumulate (fun _ => [⟨"/t/types/x", "1"⟩, ⟨"/t/types/y", "2"⟩])
      ⟨["/t"], true, true, false, true⟩ = [("types", .arr [.num 1, .num 2])] := by
    simp [jsonAccumulate, hb, mergeMaps, mergeOne.eq_def, mapGet, mapSet]
  exact C10_missing_query_fails [("types", .arr [.num 1, .num 2])] [.num 1, .num 2]
    (fun _ => [⟨"/t/types/x", "1"⟩, ⟨"/t/types/y", "2"⟩]) (fun _ => none) (fun _ => none)
    ⟨["/t"], true, true, false, true⟩ rfl rfl rfl rfl hacc

/-! ## Lemmas: the Kahn run over a `types` sequence -/

theorem sortedNamesOf_spec (rawTypes : List Value) :
    (sortedNamesOf rawTypes).Nodup ∧
    (∀ x ∈ sortedNamesOf rawTypes, x ∈ declaredNames rawTypes) ∧
    (∀ e ∈ typeEdges rawTypes, e.2 ∈ sortedNamesOf rawTypes →
      e.1 ∈ sortedNamesOf rawTypes ∧
      (sortedNamesOf rawTypes).indexOf e.1 < (sortedNamesOf rawTypes).indexOf e.2) ∧
    (∀ n ∈ declaredNames rawTypes, n ∉ sortedNamesOf rawTypes →
      ∃ e ∈ typeEdges rawTypes, e.2 = n ∧ e.1 ∉ sortedNamesOf rawTypes) :=
  kahnNames_spec (typeEdges rawTypes) (declaredNames rawTypes)
    (declaredNames_nodup rawTypes) (typeEdges_mem rawTypes)

theorem sortedNamesOf_length_le (rawTypes : List Value) :
    (sortedNamesOf rawTypes).length ≤ (declaredNames rawTypes).length :=
  (List.Nodup.subperm (sortedNamesOf_spec rawTypes).1
    (fun x hx => (sortedNamesOf_spec rawTypes).2.1 x hx)).length_le

theorem sortedNamesOf_complete (rawTypes : List Value)
    (hacyc : AcyclicEdges (typeEdges rawTypes)) :
    ∀ n ∈ declaredNames rawTypes, n ∈ sortedNamesOf rawTypes :=
  kahnNames_complete (typeEdges rawTypes) (declaredNames rawTypes)
    (declaredNames_nodup rawTypes) (typeEdges_mem rawTypes) hacyc

theorem sortedTypesOf_length (rawTypes : List Value) :
    (sortedTypesOf rawTypes).length = (sortedNamesOf rawTypes).length := by
  simp [sortedTypesOf]

theorem sortedNamesOf_length_eq (rawTypes : List Value)
    (hacyc : AcyclicEdges (typeEdges rawTypes)) :
    (sortedNamesOf rawTypes).length = (declaredNames rawTypes).length :=
  Nat.le_antisymm (sortedNamesOf_length_le rawTypes)
    (List.Nodup.subperm (declaredNames_nodup rawTypes)
      (fun n hn => sortedNamesOf_complete rawTypes hacyc n hn)).length_le

theorem sortedNamesOf_length_lt (rawTypes : List Value)
    (hcyc : ∃ x, EdgeChain (typeEdges rawTypes) x x) :
    (sortedNamesOf rawTypes).length < (declaredNames rawTypes).length := by
  obtain ⟨x, hchain⟩ := hcyc
  rcases Nat.lt_or_ge (sortedNamesOf rawTypes).length (declaredNames rawTypes).length with h | h
  · exact h
  · exfalso
    have hsp : List.Subperm (sortedNamesOf rawTypes) (declaredNames rawTypes) :=
      List.Nodup.subperm (sortedNamesOf_spec rawTypes).1
        (fun y hy => (sortedNamesOf_spec rawTypes).2.1 y hy)
    have hperm := hsp.perm_of_length_le h
    have hsub : ∀ n ∈ declaredNames rawTypes, n ∈ sortedNamesOf rawTypes :=
      fun n hn => hperm.symm.subset hn
    have hrank : ∀ e ∈ typeEdges rawTypes,
        (sortedNamesOf rawTypes).indexOf e.1 < (sortedNamesOf rawTypes).indexOf e.2 := by
      intro e he
      exact ((sortedNamesOf_spec rawTypes).2.2.1 e he
        (hsub e.2 (typeEdges_mem rawTypes e he).2)).2
    exact lt_irrefl _ (edgeChain_rank (typeEdges rawTypes)
      (fun n => (sortedNamesOf rawTypes).indexOf n) hrank x x hchain)

/-- C1: for a top-level mapping holding a `types` sequence and a `query` key,
when every type entry carries a `name` (pairwise distinct) and the dependency
graph drawn from `ofType` references to declared types (in fields and field
args; undeclared names contribute no edge) is acyclic, the dependency sort
succeeds with the rebuilt mapping, the sorted sequence keeps every entry, and
along every dependency edge the dependency appears strictly before the
dependent type in the sorted order. -/
theorem C1_dependency_sort_topological (schema : List (String × Value))
    (rawTypes : List Value) (query : Value)
    (hty : mapGet schema "types" = some (.arr rawTypes))
    (hq : mapGet schema "query" = some query)
    (hwf : WellFormedTypes rawTypes)
    (hacyc : AcyclicEdges (typeEdges rawTypes)) :
    sortTypesByDependency schema =
      .ok [("types", .arr (sortedTypesOf rawTypes)), ("query", query)] ∧
    (sortedTypesOf rawTypes).length = rawTypes.length ∧
    (∀ e ∈ typeEdges rawTypes,
      e.1 ∈ sortedNamesOf rawTypes ∧ e.2 ∈ sortedNamesOf rawTypes ∧
      (sortedNamesOf rawTypes).indexOf e.1 < (sortedNamesOf rawTypes).indexOf e.2) := by
  have hlen : (sortedTypesOf rawTypes).length = rawTypes.length := by
    rw [sortedTypesOf_length, sortedNamesOf_length_eq rawTypes hacyc,
      declaredNames_length rawTypes hwf]
  refine ⟨?_, hlen, ?_⟩
  · rw [sortTypesByDependency, hty, hq]
    simp [hlen]
  · intro e he
    have h2 : e.2 ∈ sortedNamesOf rawTypes :=
      sortedNamesOf_complete rawTypes hacyc e.2 (typeEdges_mem rawTypes e he).2
    obtain ⟨h1, hlt⟩ := (sortedNamesOf_spec rawTypes).2.2.1 e he h2
    exact ⟨h1, h2, hlt⟩

theorem C1_dependency_sort_topological_witness :
    sortTypesByDependency [("types", .arr twoTypes), ("query", .str "q")] =
      .ok [("types", .arr
            [.obj [("name", .str "A")],
             .obj [("name", .str "B"),
                   ("fields", .arr [.obj [("ofType", .str "A")]])]]),
           ("query", .str "q")] :=
  ((C1_dependency_sort_topological [("types", .arr twoTypes), ("query", .str "q")]
      twoTypes (.str "q") rfl rfl ⟨by decide, by decide⟩
      ⟨fun n => if n = "A" then 0 else 1, by decide⟩).1).trans (by rfl)

/-- C2: when the declared-type dependency graph has a directed cycle, the Kahn
output misses at least one declared name, so the sorted sequence is strictly
shorter than `types`; the dependency sort then fails with the
circular-dependency error, the JSON-mode build with sortByDependencies set
propagates that error (never returning a truncated list), and for every
well-formed schema the circular-dependency error is returned exactly when the
sorted sequence is shorter than the declared `types`. -/
theorem C2_cycle_detected (schema : List (String × Value))
    (rawTypes : List Value) (query : Value)
    (hty : mapGet schema "types" = some (.arr rawTypes))
    (hq : mapGet schema "query" = some query)
    (hwf : WellFormedTypes rawTypes)
    (hcyc : ∃ x, EdgeChain (typeEdges rawTypes) x x) :
    (sortedTypesOf rawTypes).length < rawTypes.length ∧
    sortTypesByDependency schema =
      .error "dependencia circular detectada no schema de tipos" ∧
    (∀ (fetch : String → List Param) (tryMap : String → Option (List (String × Value)))
      (tryList : String → Option (List Value)) (opts : BuildOptions),
      opts.yamlRules = false → opts.sortByDependencies = true →
      jsonAccumulate fetch opts = schema →
      BuildConfigFromPrefixes fetch tryMap tryList opts =
        .error ("erro ao ordenar tipos por dependencia: " ++
          "dependencia circular detectada no schema de tipos")) ∧
    (∀ (s2 : List (String × Value)) (raw2 : List Value) (q2 : Value),
      mapGet s2 "types" = some (.arr raw2) → mapGet s2 "query" = some q2 →
      WellFormedTypes raw2 →
      (sortTypesByDependency s2 =
          .error "dependencia circular detectada no schema de tipos" ↔
        (sortedTypesOf raw2).length < raw2.length)) := by
  have hlt : (sortedTypesOf rawTypes).length < rawTypes.length := by
    rw [sortedTypesOf_length, ← declaredNames_length rawTypes hwf]
    exact sortedNamesOf_length_lt rawTypes hcyc
  have hsort : sortTypesByDependency schema =
      .error "dependencia circular detectada no schema de tipos" := by
    rw [sortTypesByDependency, hty, hq]
    simp [Nat.ne_of_lt hlt]
  refine ⟨hlt, hsort, ?_, ?_⟩
  · intro fetch tryMap tryList opts hy hs hacc
    rw [BuildConfigFromPrefixes]
    simp [hy, hs, hacc, hsort]
  · intro s2 raw2 q2 ht2 hq2 hwf2
    constructor
    · intro herr
      by_contra hge
      push_neg at hge
      have hle : (sortedTypesOf raw2).length ≤ raw2.length := by
        rw [sortedTypesOf_length, ← declaredNames_length raw2 hwf2]
        exact sortedNamesOf_length_le raw2
      have heq : (sortedTypesOf raw2).length = raw2.length := le_antisymm hle hge
      rw [sortTypesByDependency, ht2, hq2] at herr
      simp [heq] at herr
    · intro hlt2
      rw [sortTypesByDependency, ht2, hq2]
      simp [Nat.ne_of_lt hlt2]

theorem C2_cycle_detected_witness :
    (sortedTypesOf cycleTypes).length < cycleTypes.length ∧
    sortTypesByDependency [("types", .arr cycleTypes), ("query", .str "q")] =
      .error "dependencia circular detectada no schema de tipos" :=
  have h := C2_cycle_detected [("types", .arr cycleTypes), ("query", .str "q")]
    cycleTypes (.str "q") rfl rfl ⟨by decide, by decide⟩
    ⟨"A", EdgeChain.cons (show ("A", "C") ∈ typeEdges cycleTypes by decide)
      (EdgeChain.cons (show ("C", "B") ∈ typeEdges cycleTypes by decide)
        (EdgeChain.single (show ("B", "A") ∈ typeEdges cycleTypes by decide)))⟩
  ⟨h.1, h.2.1⟩


end GoConfig
